import Mathlib

/-!
Verification development for the nested-comment subsystem of the
`posting-system` repository (Comment model, comments routers, and the
tree-building logic shared with the posts router).

The comment store is modelled as a list of rows of the `comments` table;
SQL/Sequelize primitives become list operations (`findByPk` is `find?`,
`WHERE` clauses are `filter`, `ORDER BY created_at` is a stable sort,
`LIMIT/OFFSET` are `take/drop`).  Primary keys are unique and, because ids
are auto-incremented and a parent must exist before any of its replies, a
stored comment's `parent_id` always refers to a smaller id; the predicate
`WfStore` captures exactly these database invariants and the recursive
walks of the source (`getCommentDepth`, cascade deletion, tree building)
are given fuel sufficient under them.
-/

/-- A row of the `comments` table (the Sequelize `Comment` model).
`created_at` is an abstract timestamp. -/
structure Comment where
  id : Nat
  post_id : Nat
  user_id : Nat
  parent_id : Option Nat
  content : String
  is_published : Bool
  created_at : Nat
deriving DecidableEq

/-- JavaScript `String.prototype.trim`: strip leading and trailing
whitespace.  (Defined over the character list so that proofs can evaluate
it; the standard library's `String.trim` is not kernel-reducible.) -/
def strTrim (s : String) : String :=
  ⟨((s.data.dropWhile Char.isWhitespace).reverse.dropWhile Char.isWhitespace).reverse⟩

/-- `Comment.findByPk`: primary-key lookup in the store. -/
def findByPk (store : List Comment) (cid : Nat) : Option Comment :=
  store.find? (fun c => c.id == cid)

/-- The auto-increment id the database would assign to the next inserted row. -/
def nextId (store : List Comment) : Nat :=
  store.foldr (fun c m => max c.id m) 0 + 1

/-- One stored comment respects the key discipline: its `parent_id`, when set,
is a smaller id that resolves in the store. -/
def wfParentB (store : List Comment) (c : Comment) : Bool :=
  match c.parent_id with
  | none => true
  | some p => decide (p < c.id) && store.any (fun q => q.id == p)

/-- Database invariants of the comments table: unique primary keys, and every
`parent_id` references an existing row with a smaller (earlier) id. -/
def WfStore (store : List Comment) : Prop :=
  (store.map (fun c => c.id)).Nodup ∧ ∀ c ∈ store, wfParentB store c = true

instance : DecidablePred WfStore := fun _ =>
  inferInstanceAs (Decidable (_ ∧ _))

/-- `Comment.getCommentDepth` (Comment model): walk the `parent_id` chain
upward, counting hops; 0 for a null id, a missing row, or a root.  The
source recurses without a bound; the `fuel` argument makes the walk total,
and any fuel above the starting id gives the source's value on stores
satisfying `WfStore` (ids strictly decrease along the chain). -/
def getCommentDepth (store : List Comment) : Nat → Option Nat → Nat
  | _, none => 0
  | 0, some _ => 0
  | fuel + 1, some cid =>
    match findByPk store cid with
    | none => 0
    | some c =>
      match c.parent_id with
      | none => 0
      | some p => 1 + getCommentDepth store fuel (some p)

/-- Depth of a stored comment: hops from it to its nearest null-parent
ancestor, computed by the source's recursive walk. -/
def depthOf (store : List Comment) (c : Comment) : Nat :=
  getCommentDepth store (c.id + 1) (some c.id)

/-- The spec's depth invariant: every stored comment sits at depth ≤ 5. -/
def DepthInv (store : List Comment) : Prop :=
  ∀ c ∈ store, depthOf store c ≤ 5

instance : DecidablePred DepthInv := fun store =>
  inferInstanceAs (Decidable (∀ c ∈ store, depthOf store c ≤ 5))

/-- Body of `POST /api/comments` (comments router). -/
structure CreateRequest where
  post_id : Nat
  user_id : Nat
  content : String
  parent_id : Option Nat
deriving DecidableEq

/-- The express-validator chain of `POST /api/comments`: `post_id` and
`user_id` are positive integers, `content` trimmed to length 1..2000,
`parent_id` (when present) a positive integer.  `handleValidationErrors`
rejects the request when any check fails. -/
def validCreate (req : CreateRequest) : Bool :=
  decide (1 ≤ req.post_id) && decide (1 ≤ req.user_id) &&
  (decide (1 ≤ (strTrim req.content).length) && decide ((strTrim req.content).length ≤ 2000)) &&
  (match req.parent_id with
   | none => true
   | some p => decide (1 ≤ p))

/-- A data-layer access performed by a route handler, recorded in order. -/
inductive DbAccess where
  | postLookup (id : Nat)
  | userLookup (id : Nat)
  | commentLookup (id : Nat)
  | depthWalk (id : Nat)
  | insertRow (id : Nat)
deriving DecidableEq

/-- Outcome of `POST /api/comments`: an error response or the created row. -/
inductive CreateResult where
  | apiError (status : Nat) (etype : String)
  | created (c : Comment)
deriving DecidableEq

structure CreateOutcome where
  res : CreateResult
  store : List Comment
  trace : List DbAccess
deriving DecidableEq

/-- `POST /api/comments` (comments router): validation, post and user
existence checks, parent validation (exists, same post, depth < 5), then
the insert.  `posts`/`users` are the id sets of the existing rows of the
external tables; `now` is the creation timestamp. -/
def createComment (posts users : List Nat) (store : List Comment)
    (req : CreateRequest) (now : Nat) : CreateOutcome :=
  if !(validCreate req) then
    { res := .apiError 400 "VALIDATION_ERROR", store := store, trace := [] }
  else if !(posts.contains req.post_id) then
    { res := .apiError 404 "NOT_FOUND", store := store,
      trace := [.postLookup req.post_id] }
  else if !(users.contains req.user_id) then
    { res := .apiError 404 "NOT_FOUND", store := store,
      trace := [.postLookup req.post_id, .userLookup req.user_id] }
  else
    match req.parent_id with
    | some pid =>
      match findByPk store pid with
      | none =>
        { res := .apiError 404 "NOT_FOUND", store := store,
          trace := [.postLookup req.post_id, .userLookup req.user_id,
                    .commentLookup pid] }
      | some parent =>
        if parent.post_id != req.post_id then
          { res := .apiError 400 "INVALID_PARENT", store := store,
            trace := [.postLookup req.post_id, .userLookup req.user_id,
                      .commentLookup pid] }
        else if 5 ≤ getCommentDepth store (pid + 1) (some pid) then
          { res := .apiError 400 "MAX_DEPTH_EXCEEDED", store := store,
            trace := [.postLookup req.post_id, .userLookup req.user_id,
                      .commentLookup pid, .depthWalk pid] }
        else
          let c : Comment :=
            { id := nextId store, post_id := req.post_id, user_id := req.user_id,
              parent_id := some pid, content := strTrim req.content,
              is_published := true, created_at := now }
          { res := .created c, store := store ++ [c],
            trace := [.postLookup req.post_id, .userLookup req.user_id,
                      .commentLookup pid, .depthWalk pid, .insertRow c.id] }
    | none =>
      let c : Comment :=
        { id := nextId store, post_id := req.post_id, user_id := req.user_id,
          parent_id := none, content := strTrim req.content,
          is_published := true, created_at := now }
      { res := .created c, store := store ++ [c],
        trace := [.postLookup req.post_id, .userLookup req.user_id,
                  .insertRow c.id] }

/-- A node of the hierarchical comment tree the routes return: a comment
together with its nested `replies` array. -/
inductive CommentTree where
  | node (c : Comment) (replies : List CommentTree)

def CommentTree.comment : CommentTree → Comment
  | .node c _ => c

def CommentTree.replies : CommentTree → List CommentTree
  | .node _ rs => rs

mutual

def treeBeq : CommentTree → CommentTree → Bool
  | .node c1 rs1, .node c2 rs2 => c1 == c2 && forestBeq rs1 rs2

def forestBeq : List CommentTree → List CommentTree → Bool
  | [], [] => true
  | t :: ts, u :: us => treeBeq t u && forestBeq ts us
  | _, _ => false

end

mutual

theorem treeBeq_iff : ∀ a b : CommentTree, treeBeq a b = true ↔ a = b
  | .node c1 rs1, .node c2 rs2 => by
    simp [treeBeq, forestBeq_iff rs1 rs2]

theorem forestBeq_iff : ∀ a b : List CommentTree, forestBeq a b = true ↔ a = b
  | [], [] => by simp [forestBeq]
  | [], _ :: _ => by simp [forestBeq]
  | _ :: _, [] => by simp [forestBeq]
  | t :: ts, u :: us => by
    simp [forestBeq, treeBeq_iff t u, forestBeq_iff ts us]

end

instance : DecidableEq CommentTree := fun a b =>
  decidable_of_iff _ (treeBeq_iff a b)

/-- The children a node with id `cid` receives in the second pass of the
tree build: the input comments whose `parent_id` is `cid` (pushed in input
order onto the node found in `commentMap`; primary keys are unique, so the
map lookup is the unique comment with that id). -/
def childrenOf (l : List Comment) (cid : Nat) : List Comment :=
  l.filter (fun x => x.parent_id == some cid)

/-- The subtree the tree build hangs below comment `c`.  The imperative
build resolves children through `commentMap`; `fuel` bounds the recursion
depth (any fuel above the number of input comments with a larger id is
enough when parents have smaller ids than their children). -/
def buildNode (l : List Comment) : Nat → Comment → CommentTree
  | 0, c => .node c []
  | fuel + 1, c => .node c ((childrenOf l c.id).map (buildNode l fuel))

/-- The tree build of the comments routers (`GET /api/comments/post/:postId`)
and `Comment.getCommentTree`: `rootComments` receives the input comments
with null `parent_id`, in input order, and every other comment is pushed
onto its parent's `replies` when `commentMap` resolves the parent (a
comment whose parent does not resolve is pushed nowhere). -/
def buildForest (l : List Comment) : List CommentTree :=
  (l.filter (fun c => c.parent_id == none)).map (buildNode l l.length)

mutual

/-- Pre-order flattening of one tree: the node, then its subtrees. -/
def flattenTree : CommentTree → List Comment
  | .node c rs => c :: flattenForest rs

/-- Pre-order flattening of a forest. -/
def flattenForest : List CommentTree → List Comment
  | [] => []
  | t :: ts => flattenTree t ++ flattenForest ts

end

/-- The `sort` query parameter of the listing routes. -/
inductive SortPar where
  | newest
  | oldest
deriving DecidableEq

/-- `ORDER BY created_at` with the direction the route derives from `sort`
(`newest` is `DESC`, `oldest` is `ASC`); also the comparator that
`sortReplies` passes to `Array.prototype.sort`. -/
def commentLe (dir : SortPar) (a b : Comment) : Prop :=
  match dir with
  | .newest => b.created_at ≤ a.created_at
  | .oldest => a.created_at ≤ b.created_at

instance : ∀ dir, DecidableRel (commentLe dir) := fun dir a b => by
  cases dir <;> exact inferInstanceAs (Decidable (_ ≤ _))

instance : ∀ dir, IsTotal Comment (commentLe dir) := fun dir =>
  ⟨fun _ _ => by cases dir <;> exact Nat.le_total _ _⟩

instance : ∀ dir, IsTrans Comment (commentLe dir) := fun dir =>
  ⟨fun _ _ _ h1 h2 => by
    cases dir <;> exact Nat.le_trans (by assumption) (by assumption)⟩

/-- The same comparator lifted to tree nodes (it reads the node's root
comment, as `sortReplies` reads `a.created_at` of the array elements). -/
def treeLe (dir : SortPar) (a b : CommentTree) : Prop :=
  commentLe dir a.comment b.comment

instance : ∀ dir, DecidableRel (treeLe dir) := fun dir _ _ =>
  inferInstanceAs (Decidable (commentLe dir _ _))

instance : ∀ dir, IsTotal CommentTree (treeLe dir) := fun dir =>
  ⟨fun _ _ => (inferInstanceAs (IsTotal Comment (commentLe dir))).total _ _⟩

instance : ∀ dir, IsTrans CommentTree (treeLe dir) := fun dir =>
  ⟨fun _ _ _ h1 h2 =>
    (inferInstanceAs (IsTrans Comment (commentLe dir))).trans _ _ _ h1 h2⟩

mutual

/-- `sortReplies` applied below one node: sort the node's `replies` by
creation timestamp in the requested direction and recurse into them.
(`Array.prototype.sort` is stable and the recursion does not change any
node's timestamp, so sorting after the recursive pass, as written here,
produces the order of the source, which sorts before recursing.) -/
def sortTree (dir : SortPar) : CommentTree → CommentTree
  | .node c rs => .node c (List.insertionSort (treeLe dir) (sortForest dir rs))

/-- `sortReplies(rootComments)`: the top-level list itself is not re-sorted
(it keeps the order of the fetch); only each node's `replies` are. -/
def sortForest (dir : SortPar) : List CommentTree → List CommentTree
  | [] => []
  | t :: ts => sortTree dir t :: sortForest dir ts

end

/-- Adjacent-pairs check used to state sort consistency of one level. -/
def adjOk (r : Nat → Nat → Bool) : List Nat → Bool
  | [] => true
  | [_] => true
  | a :: b :: t => r a b && adjOk r (b :: t)

/-- All sibling lists down to depth `fuel` satisfy the adjacent ordering
check on creation timestamps (`∀ fuel` covers every level of the tree). -/
def levelsSorted (r : Nat → Nat → Bool) : Nat → List CommentTree → Bool
  | 0, _ => true
  | fuel + 1, ts =>
    adjOk r (ts.map (fun t => t.comment.created_at)) &&
      ts.all (fun t => levelsSorted r fuel t.replies)

/-- The Boolean form of the sibling ordering the claim states: timestamps
non-increasing for `newest`, non-decreasing for `oldest`. -/
def dirOk (dir : SortPar) (a b : Nat) : Bool :=
  match dir with
  | .newest => decide (b ≤ a)
  | .oldest => decide (a ≤ b)

/-- Result payload of `GET /api/comments/post/:postId` (comments router,
Sequelize variant): the tree, the fetched-row count, nothing more — this
route has no `page` parameter and returns no pagination object. -/
structure PostCommentsData where
  post_id : Nat
  comments : List CommentTree
  total_count : Nat
deriving DecidableEq

inductive PostCommentsResult where
  | apiError (status : Nat) (etype : String)
  | ok (d : PostCommentsData)
deriving DecidableEq

/-- `GET /api/comments/post/:postId` (comments router, Sequelize variant):
verify the post, fetch the post's published comments ordered by
`created_at` and bounded by `limit`, build the tree, then `sortReplies`.
(The reaction/author/media joins annotate nodes without affecting the
tree structure and are modelled separately where a claim mentions them.) -/
def getPostComments (posts : List Nat) (store : List Comment) (postId : Nat)
    (dir : SortPar) (limit : Nat) : PostCommentsResult :=
  if !(posts.contains postId) then .apiError 404 "NOT_FOUND"
  else
    let fetched :=
      (List.insertionSort (commentLe dir)
        (store.filter (fun c => c.post_id == postId && c.is_published))).take limit
    .ok { post_id := postId,
          comments := sortForest dir (buildForest fetched),
          total_count := fetched.length }

/-- A row of the `reactions` table, restricted to the fields the comment
routes read (`comment_id` is null for post reactions). -/
structure Reaction where
  comment_id : Option Nat
  emoji_name : String
  emoji_unicode : String
deriving DecidableEq

/-- One entry of the derived `reaction_counts` array. -/
structure ReactionCount where
  emoji_name : String
  emoji_unicode : String
  count : Nat
deriving DecidableEq

/-- One step of the `reactionCounts` accumulation of the comment routes:
group by `emoji_name`, first occurrence fixes the entry's position and
`emoji_unicode` (JavaScript object keys keep insertion order). -/
def addReaction (acc : List ReactionCount) (r : Reaction) : List ReactionCount :=
  if acc.any (fun e => e.emoji_name == r.emoji_name) then
    acc.map (fun e =>
      if e.emoji_name == r.emoji_name then
        { e with count := e.count + 1 }
      else e)
  else
    acc ++ [{ emoji_name := r.emoji_name, emoji_unicode := r.emoji_unicode, count := 1 }]

/-- `Object.values(reactionCounts)` for one comment's reactions. -/
def computeReactionCounts (rs : List Reaction) : List ReactionCount :=
  rs.foldl addReaction []

/-- The reactions attached to comment `cid`. -/
def reactionsOf (reactions : List Reaction) (cid : Nat) : List Reaction :=
  reactions.filter (fun r => r.comment_id == some cid)

/-- The `pagination` object of the paginated comments listing. -/
structure Pagination where
  current_page : Nat
  total_pages : Nat
  total_count : Nat
  limit : Nat
  has_next_page : Bool
  has_prev_page : Bool
deriving DecidableEq

structure PagedCommentsData where
  post_id : Nat
  comments : List CommentTree
  total_count : Nat
  pagination : Pagination
deriving DecidableEq

inductive PagedCommentsResult where
  | apiError (status : Nat) (etype : String)
  | ok (d : PagedCommentsData)
deriving DecidableEq

/-- The post's published top-level comments
(`WHERE post_id = $1 AND is_published = true AND parent_id IS NULL`). -/
def topLevelPublished (store : List Comment) (postId : Nat) : List Comment :=
  store.filter (fun c => c.post_id == postId && c.is_published && c.parent_id == none)

/-- The page window of top-level comments:
`ORDER BY created_at dir LIMIT limit OFFSET (page-1)*limit`. -/
def pageWindow (store : List Comment) (postId : Nat) (dir : SortPar)
    (limit page : Nat) : List Comment :=
  ((List.insertionSort (commentLe dir) (topLevelPublished store postId)).drop
    ((page - 1) * limit)).take limit

/-- The batch reply fetch of the paginated listing: the published comments
whose `parent_id = ANY(commentIds)` — the *direct* replies of the page's
top-level comments — ordered by `created_at`. -/
def directRepliesFetch (store : List Comment) (commentIds : List Nat)
    (dir : SortPar) : List Comment :=
  List.insertionSort (commentLe dir)
    (store.filter (fun c =>
      (match c.parent_id with
       | some p => commentIds.contains p
       | none => false) && c.is_published))

/-- `GET /api/comments/post/:postId` (raw-SQL comments router, the
paginated variant): count the published top-level comments, fetch the page
window of them, batch-fetch those comments' direct published replies,
build the tree over the union, `sortReplies`, and derive the pagination
object from the top-level-only count (`totalPages = ceil(count/limit)`,
`has_next_page = page < totalPages`, `has_prev_page = page > 1`). -/
def getPostCommentsPaged (posts : List Nat) (store : List Comment)
    (postId : Nat) (dir : SortPar) (limit page : Nat) : PagedCommentsResult :=
  if !(posts.contains postId) then .apiError 404 "NOT_FOUND"
  else
    let totalCount := (topLevelPublished store postId).length
    let topPage := pageWindow store postId dir limit page
    let commentIds := topPage.map (fun c => c.id)
    let allComments := topPage ++ directRepliesFetch store commentIds dir
    let totalPages := (totalCount + limit - 1) / limit
    .ok { post_id := postId,
          comments := sortForest dir (buildForest allComments),
          total_count := totalCount,
          pagination :=
            { current_page := page, total_pages := totalPages,
              total_count := totalCount, limit := limit,
              has_next_page := decide (page < totalPages),
              has_prev_page := decide (1 < page) } }

/-- Payload of `GET /api/comments/:id`: the comment, its published direct
replies (the `replies` include carries `where is_published: true`), and
its `reaction_counts`. -/
structure SingleCommentData where
  comment : Comment
  replies : List Comment
  reaction_counts : List ReactionCount
deriving DecidableEq

inductive SingleCommentResult where
  | apiError (status : Nat) (etype : String)
  | ok (d : SingleCommentData)
deriving DecidableEq

/-- `GET /api/comments/:id`: `findByPk` (no published filter on the
comment itself) with the filtered `replies` include; 404 when the row is
absent. -/
def getComment (store : List Comment) (reactions : List Reaction)
    (cid : Nat) : SingleCommentResult :=
  match findByPk store cid with
  | none => .apiError 404 "NOT_FOUND"
  | some c =>
    .ok { comment := c,
          replies := store.filter (fun x => x.parent_id == some cid && x.is_published),
          reaction_counts := computeReactionCounts (reactionsOf reactions cid) }

/-- One element of the `GET /api/comments/:id/replies` payload. -/
structure ReplyItem where
  comment : Comment
  reaction_counts : List ReactionCount
deriving DecidableEq

structure RepliesData where
  parent_comment_id : Nat
  replies : List ReplyItem
  total_count : Nat
deriving DecidableEq

inductive RepliesResult where
  | apiError (status : Nat) (etype : String)
  | ok (d : RepliesData)
deriving DecidableEq

/-- `GET /api/comments/:id/replies`: 404 when the comment is absent,
otherwise the published comments with `parent_id = :id` ordered by
`created_at` and bounded by `limit`, each with its own `reaction_counts`. -/
def getReplies (store : List Comment) (reactions : List Reaction)
    (cid : Nat) (dir : SortPar) (limit : Nat) : RepliesResult :=
  match findByPk store cid with
  | none => .apiError 404 "NOT_FOUND"
  | some _ =>
    let replies :=
      (List.insertionSort (commentLe dir)
        (store.filter (fun c => c.parent_id == some cid && c.is_published))).take limit
    .ok { parent_comment_id := cid,
          replies := replies.map (fun r =>
            { comment := r,
              reaction_counts := computeReactionCounts (reactionsOf reactions r.id) }),
          total_count := replies.length }

/-- Is comment `x` the comment with id `t` or one of its descendants?
Walks `x`'s parent chain, as the cascading foreign-key delete reaches
exactly the rows whose chain passes through the deleted id; fuel above
`x.id` suffices under `WfStore`. -/
def inSubtreeB (store : List Comment) : Nat → Comment → Nat → Bool
  | 0, x, t => x.id == t
  | fuel + 1, x, t =>
    x.id == t ||
      (match x.parent_id with
       | none => false
       | some p =>
         match findByPk store p with
         | none => false
         | some q => inSubtreeB store fuel q t)

/-- `Comment.count({ where: { parent_id: commentId } })`: the comment's
direct children (published or not). -/
def directReplyCount (store : List Comment) (cid : Nat) : Nat :=
  (store.filter (fun c => c.parent_id == some cid)).length

/-- The success message of `DELETE /api/comments/:id`. -/
def deleteMessage (replyCount : Nat) : String :=
  "Comment deleted successfully" ++
    (if 0 < replyCount then " along with " ++ toString replyCount ++ " replies" else "")

structure DeleteOutcome where
  status : Nat
  message : String
  store : List Comment
deriving DecidableEq

/-- `DELETE /api/comments/:id`: 404 when the comment is absent; otherwise
count the direct children for the message and delete the row — the
`onDelete: 'CASCADE'` foreign key on `parent_id` (Comment model) removes
the entire descendant subtree with it. -/
def deleteComment (store : List Comment) (cid : Nat) : DeleteOutcome :=
  match findByPk store cid with
  | none => { status := 404, message := "Comment not found", store := store }
  | some _ =>
    { status := 200,
      message := deleteMessage (directReplyCount store cid),
      store := store.filter (fun x => !(inSubtreeB store (x.id + 1) x cid)) }

example :
    getCommentDepth
      [⟨1, 1, 1, none, "a", true, 0⟩, ⟨2, 1, 1, some 1, "b", true, 1⟩,
       ⟨3, 1, 1, some 2, "c", true, 2⟩] 4 (some 3) = 2 := by decide

example :
    deleteComment
      [⟨1, 1, 1, none, "A", true, 0⟩, ⟨2, 1, 1, none, "B", true, 1⟩,
       ⟨3, 1, 1, some 1, "C", true, 2⟩, ⟨4, 1, 1, some 3, "D", true, 3⟩] 1
    = { status := 200,
        message := "Comment deleted successfully along with 1 replies",
        store := [⟨2, 1, 1, none, "B", true, 1⟩] } := by decide

example :
    computeReactionCounts
      [⟨some 1, "like", "u1"⟩, ⟨some 1, "wow", "u2"⟩, ⟨some 1, "like", "u1"⟩]
    = [⟨"like", "u1", 2⟩, ⟨"wow", "u2", 1⟩] := by decide

/-! ### Store well-formedness: decidable pieces and accessors -/

/-- Unique primary keys. -/
def IdsNodup (l : List Comment) : Prop := (l.map (fun c => c.id)).Nodup

instance : DecidablePred IdsNodup := fun _ =>
  inferInstanceAs (Decidable (List.Nodup _))

def parentLtB (c : Comment) : Bool :=
  match c.parent_id with
  | none => true
  | some p => decide (p < c.id)

/-- Parents carry smaller ids than their children (auto-increment plus
parent-must-exist-first). -/
def ParentLtP (l : List Comment) : Prop := ∀ c ∈ l, parentLtB c = true

instance : DecidablePred ParentLtP := fun _ =>
  inferInstanceAs (Decidable (∀ c ∈ _, _ = true))

def resolvesB (l : List Comment) (c : Comment) : Bool :=
  match c.parent_id with
  | none => true
  | some p => l.any (fun q => q.id == p)

/-- Every set `parent_id` resolves to an element of the list. -/
def ResolvesP (l : List Comment) : Prop := ∀ c ∈ l, resolvesB l c = true

instance : DecidablePred ResolvesP := fun _ =>
  inferInstanceAs (Decidable (∀ c ∈ _, _ = true))

theorem parent_lt_of {l : List Comment} (h : ParentLtP l) {c : Comment}
    (hc : c ∈ l) {p : Nat} (hp : c.parent_id = some p) : p < c.id := by
  have := h c hc
  rw [parentLtB, hp] at this
  exact of_decide_eq_true this

theorem resolves_of {l : List Comment} (h : ResolvesP l) {c : Comment}
    (hc : c ∈ l) {p : Nat} (hp : c.parent_id = some p) : ∃ q ∈ l, q.id = p := by
  have := h c hc
  rw [resolvesB, hp] at this
  rcases List.any_eq_true.mp this with ⟨q, hq, he⟩
  exact ⟨q, hq, by simpa using he⟩

theorem wf_nodup {store : List Comment} (h : WfStore store) : IdsNodup store := h.1

theorem wf_parentLt {store : List Comment} (h : WfStore store) : ParentLtP store := by
  intro c hc
  have := h.2 c hc
  rw [wfParentB] at this
  rw [parentLtB]
  cases hp : c.parent_id with
  | none => rfl
  | some p =>
    rw [hp, Bool.and_eq_true] at this
    exact this.1

theorem wf_resolves {store : List Comment} (h : WfStore store) : ResolvesP store := by
  intro c hc
  have := h.2 c hc
  rw [wfParentB] at this
  rw [resolvesB]
  cases hp : c.parent_id with
  | none => rfl
  | some p =>
    rw [hp, Bool.and_eq_true] at this
    exact this.2

/-! ### findByPk -/

theorem findByPk_some {store : List Comment} {cid : Nat} {c : Comment}
    (h : findByPk store cid = some c) : c ∈ store ∧ c.id = cid := by
  refine ⟨List.mem_of_find?_eq_some h, ?_⟩
  have := List.find?_some h
  simpa using this

theorem findByPk_none {store : List Comment} {cid : Nat} :
    findByPk store cid = none ↔ ∀ c ∈ store, c.id ≠ cid := by
  rw [findByPk, List.find?_eq_none]
  simp

theorem findByPk_of_mem {store : List Comment} (hn : IdsNodup store)
    {c : Comment} (hc : c ∈ store) : findByPk store c.id = some c := by
  induction store with
  | nil => cases hc
  | cons a t ih =>
    rcases List.mem_cons.mp hc with rfl | hct
    · simp [findByPk]
    · have hn' := List.nodup_cons.mp hn
      have hne : (a.id == c.id) = false := by
        rw [beq_eq_false_iff_ne]
        intro he
        have hm : c.id ∈ t.map (fun x => x.id) := List.mem_map_of_mem _ hct
        rw [← he] at hm
        exact hn'.1 hm
      rw [findByPk, List.find?_cons_of_neg _ (by simp [hne])]
      exact ih hn'.2 hct

/-! ### Depth computation -/

theorem getCommentDepth_none (store : List Comment) (f : Nat) :
    getCommentDepth store f none = 0 := by
  cases f <;> rfl

theorem getCommentDepth_succ (store : List Comment) (f cid : Nat) :
    getCommentDepth store (f + 1) (some cid) =
      match findByPk store cid with
      | none => 0
      | some c =>
        match c.parent_id with
        | none => 0
        | some p => 1 + getCommentDepth store f (some p) := rfl

theorem getCommentDepth_succ_missing {store : List Comment} {f cid : Nat}
    (hfind : findByPk store cid = none) :
    getCommentDepth store (f + 1) (some cid) = 0 := by
  simp [getCommentDepth_succ, hfind]

theorem getCommentDepth_succ_root {store : List Comment} {f cid : Nat}
    {c : Comment} (hfind : findByPk store cid = some c)
    (hp : c.parent_id = none) :
    getCommentDepth store (f + 1) (some cid) = 0 := by
  simp [getCommentDepth_succ, hfind, hp]

theorem getCommentDepth_succ_step {store : List Comment} {f cid : Nat}
    {c : Comment} {p : Nat} (hfind : findByPk store cid = some c)
    (hp : c.parent_id = some p) :
    getCommentDepth store (f + 1) (some cid) = 1 + getCommentDepth store f (some p) := by
  simp [getCommentDepth_succ, hfind, hp]

theorem getCommentDepth_fuel (store : List Comment) (hlt : ParentLtP store) :
    ∀ cid f g, cid < f → cid < g →
      getCommentDepth store f (some cid) = getCommentDepth store g (some cid) := by
  intro cid
  induction cid using Nat.strong_induction_on with
  | _ cid ih =>
    intro f g hf hg
    obtain ⟨f, rfl⟩ : ∃ f0, f = f0 + 1 := ⟨f - 1, by omega⟩
    obtain ⟨g, rfl⟩ : ∃ g0, g = g0 + 1 := ⟨g - 1, by omega⟩
    cases hfind : findByPk store cid with
    | none => simp [getCommentDepth_succ, hfind]
    | some c =>
      cases hpar : c.parent_id with
      | none => simp [getCommentDepth_succ, hfind, hpar]
      | some p =>
        obtain ⟨hmem, hid⟩ := findByPk_some hfind
        have hplt : p < cid := hid ▸ parent_lt_of hlt hmem hpar
        simp [getCommentDepth_succ, hfind, hpar,
          ih p hplt f g (by omega) (by omega)]

theorem getCommentDepth_append (store : List Comment) (new : Comment)
    (hlt : ParentLtP store) (hfresh : ∀ c ∈ store, c.id < new.id) :
    ∀ f cid, cid < new.id →
      getCommentDepth (store ++ [new]) f (some cid) =
        getCommentDepth store f (some cid) := by
  intro f
  induction f with
  | zero => intro cid _; rfl
  | succ f ih =>
    intro cid hcid
    have hfind : findByPk (store ++ [new]) cid = findByPk store cid := by
      rw [findByPk, List.find?_append]
      cases hs : store.find? (fun c => c.id == cid) with
      | some c => simp [findByPk, hs, Option.or]
      | none =>
        have hne : (new.id == cid) = false := by
          rw [beq_eq_false_iff_ne]; omega
        simp [findByPk, List.find?, hne, hs]
    cases hfind2 : findByPk store cid with
    | none => simp [getCommentDepth_succ, hfind, hfind2]
    | some c =>
      cases hpar : c.parent_id with
      | none => simp [getCommentDepth_succ, hfind, hfind2, hpar]
      | some p =>
        obtain ⟨hmem, hid⟩ := findByPk_some hfind2
        have : p < c.id := parent_lt_of hlt hmem hpar
        simp [getCommentDepth_succ, hfind, hfind2, hpar, ih p (by omega)]

theorem id_le_fold (store : List Comment) :
    ∀ c ∈ store, c.id ≤ store.foldr (fun c m => max c.id m) 0 := by
  induction store with
  | nil => simp
  | cons a t ih =>
    intro c hc
    rcases List.mem_cons.mp hc with rfl | h
    · exact Nat.le_max_left _ _
    · exact Nat.le_trans (ih c h) (Nat.le_max_right _ _)

theorem lt_nextId (store : List Comment) : ∀ c ∈ store, c.id < nextId store :=
  fun c hc => Nat.lt_succ_of_le (id_le_fold store c hc)

theorem findByPk_append_self {store : List Comment} {new : Comment}
    (hfresh : ∀ c ∈ store, c.id < new.id) :
    findByPk (store ++ [new]) new.id = some new := by
  rw [findByPk, List.find?_append]
  have hs : store.find? (fun c => c.id == new.id) = none := by
    rw [List.find?_eq_none]
    intro x hx
    have := hfresh x hx
    simp only [beq_iff_eq]
    omega
  simp [hs, List.find?]

theorem depthInv_insert (store : List Comment) (new : Comment)
    (hlt : ParentLtP store) (hfresh : ∀ c ∈ store, c.id < new.id)
    (hinv : DepthInv store)
    (hnew : match new.parent_id with
            | none => True
            | some pid =>
              pid < new.id ∧ getCommentDepth store (pid + 1) (some pid) ≤ 4) :
    DepthInv (store ++ [new]) := by
  intro c hc
  rcases List.mem_append.mp hc with h | h
  · rw [depthOf, getCommentDepth_append store new hlt hfresh _ _ (hfresh c h)]
    exact hinv c h
  · have hc' : c = new := by simpa using h
    subst hc'
    cases hp : c.parent_id with
    | none => simp [depthOf, getCommentDepth_succ, findByPk_append_self hfresh, hp]
    | some pid =>
      rw [hp] at hnew
      obtain ⟨hpid, hdep⟩ := hnew
      have h1 : getCommentDepth (store ++ [c]) c.id (some pid) =
          getCommentDepth store c.id (some pid) :=
        getCommentDepth_append store c hlt hfresh c.id pid hpid
      have h2 : getCommentDepth store c.id (some pid) =
          getCommentDepth store (pid + 1) (some pid) :=
        getCommentDepth_fuel store hlt pid c.id (pid + 1) (by omega) (by omega)
      rw [depthOf, getCommentDepth_succ_step (findByPk_append_self hfresh) hp,
        h1, h2]
      omega

example :
    buildForest [⟨2, 1, 1, some 1, "orphan", true, 0⟩] = [] := by decide

example :
    (getPostComments [1]
      [⟨1, 1, 1, none, "a", true, 5⟩, ⟨2, 1, 1, some 1, "b", true, 9⟩,
       ⟨3, 1, 1, some 1, "c", true, 7⟩] 1 .newest 50)
    = .ok { post_id := 1,
            comments := [.node ⟨1, 1, 1, none, "a", true, 5⟩
              [.node ⟨2, 1, 1, some 1, "b", true, 9⟩ [],
               .node ⟨3, 1, 1, some 1, "c", true, 7⟩ []]],
            total_count := 3 } := by decide

example :
    (createComment [1] [1]
      [⟨1, 1, 1, none, "a", true, 0⟩]
      { post_id := 1, user_id := 1, content := " hi ", parent_id := some 1 } 5).res
    = .created ⟨2, 1, 1, some 1, "hi", true, 5⟩ := by decide

/-! ### Creation: branch analysis -/

theorem depthInv_createComment (posts users : List Nat) (store : List Comment)
    (req : CreateRequest) (now : Nat) (hwf : WfStore store)
    (hinv : DepthInv store) :
    DepthInv (createComment posts users store req now).store := by
  have hlt := wf_parentLt hwf
  have hfresh := lt_nextId store
  by_cases hv : validCreate req = true
  · by_cases hp : posts.contains req.post_id = true
    · by_cases hu : users.contains req.user_id = true
      · cases hpid : req.parent_id with
        | none =>
          simp only [createComment, hv, hp, hu, hpid, Bool.not_true,
            Bool.false_eq_true, if_false]
          exact depthInv_insert store _ hlt hfresh hinv trivial
        | some pid =>
          cases hfind : findByPk store pid with
          | none =>
            simp only [createComment, hv, hp, hu, hpid, hfind, Bool.not_true,
              Bool.false_eq_true, if_false]
            exact hinv
          | some parent =>
            by_cases hpost : parent.post_id = req.post_id
            · by_cases hdep : 5 ≤ getCommentDepth store (pid + 1) (some pid)
              · simp only [createComment, hv, hp, hu, hpid, hfind, hpost,
                  Bool.not_true, Bool.false_eq_true, if_false, bne_self_eq_false,
                  hdep, if_true]
                exact hinv
              · obtain ⟨hpm, hpi⟩ := findByPk_some hfind
                simp only [createComment, hv, hp, hu, hpid, hfind, hpost,
                  Bool.not_true, Bool.false_eq_true, if_false, bne_self_eq_false,
                  hdep, if_false]
                refine depthInv_insert store _ hlt hfresh hinv ?_
                have hlt2 : pid < nextId store := by
                  have := hfresh parent hpm
                  omega
                exact ⟨hlt2, by omega⟩
            · have hbne : (parent.post_id != req.post_id) = true := by
                simpa using hpost
              simp only [createComment, hv, hp, hu, hpid, hfind, hbne,
                Bool.not_true, Bool.false_eq_true, if_false, if_true]
              exact hinv
      · simp only [createComment, hv, hp, hu, Bool.not_true, Bool.not_false,
          Bool.false_eq_true, if_false, if_true]
        exact hinv
    · simp only [createComment, hv, hp, Bool.not_true, Bool.not_false,
        Bool.false_eq_true, if_false, if_true]
      exact hinv
  · have hv2 : validCreate req = false := by
      simpa using hv
    simp only [createComment, hv2, Bool.not_false, if_true]
    exact hinv

/-- C1: every stored comment sits at most 5 `parent_id` hops from its
nearest null-parent ancestor: the creation route computes the parent's
depth with the recursive walk (0 for a null `parent_id`), the request
succeeds when that depth is at most 4, fails with `MAX_DEPTH_EXCEEDED`
(HTTP 400) exactly when it is 5 or more, and no outcome of the creation
operation breaks the depth-≤-5 invariant of the store. -/
theorem C1_depth_invariant (posts users : List Nat) (store : List Comment)
    (req : CreateRequest) (now : Nat) (hwf : WfStore store)
    (hinv : DepthInv store) :
    (∀ f, getCommentDepth store f none = 0) ∧
    DepthInv (createComment posts users store req now).store ∧
    (∀ pid parent, req.parent_id = some pid → findByPk store pid = some parent →
      validCreate req = true → posts.contains req.post_id = true →
      users.contains req.user_id = true → parent.post_id = req.post_id →
      (((createComment posts users store req now).res =
          .apiError 400 "MAX_DEPTH_EXCEEDED") ↔ 5 ≤ depthOf store parent) ∧
      (depthOf store parent ≤ 4 →
        ∃ c, (createComment posts users store req now).res = .created c ∧
          c.parent_id = some pid ∧
          depthOf (createComment posts users store req now).store c ≤ 5)) := by
  refine ⟨getCommentDepth_none store,
    depthInv_createComment posts users store req now hwf hinv, ?_⟩
  intro pid parent hpid hfind hv hp hu hpost
  obtain ⟨hpm, hpi⟩ := findByPk_some hfind
  have hdepth_eq : depthOf store parent =
      getCommentDepth store (pid + 1) (some pid) := by
    rw [depthOf, hpi]
  by_cases hdep : 5 ≤ getCommentDepth store (pid + 1) (some pid)
  · have hres : (createComment posts users store req now).res =
        .apiError 400 "MAX_DEPTH_EXCEEDED" := by
      simp only [createComment, hv, hp, hu, hpid, hfind, hpost, Bool.not_true,
        Bool.false_eq_true, if_false, bne_self_eq_false, if_pos hdep]
    refine ⟨by simp [hres, hdepth_eq, hdep], ?_⟩
    intro hle
    rw [hdepth_eq] at hle
    omega
  · have hres : (createComment posts users store req now).res =
        .created { id := nextId store, post_id := req.post_id,
                   user_id := req.user_id, parent_id := some pid,
                   content := strTrim req.content, is_published := true,
                   created_at := now } := by
      simp only [createComment, hv, hp, hu, hpid, hfind, hpost, Bool.not_true,
        Bool.false_eq_true, if_false, bne_self_eq_false, if_neg hdep]
    have hstore : (createComment posts users store req now).store =
        store ++ [{ id := nextId store, post_id := req.post_id,
                    user_id := req.user_id, parent_id := some pid,
                    content := strTrim req.content, is_published := true,
                    created_at := now }] := by
      simp only [createComment, hv, hp, hu, hpid, hfind, hpost, Bool.not_true,
        Bool.false_eq_true, if_false, bne_self_eq_false, if_neg hdep]
    constructor
    · rw [hres]
      simp only [hdepth_eq]
      constructor
      · intro he
        cases he
      · intro hge
        omega
    · intro _
      refine ⟨_, hres, rfl, ?_⟩
      apply depthInv_createComment posts users store req now hwf hinv
      rw [hstore]
      simp

theorem C1_depth_invariant_witness :
    DepthInv (createComment [1] [1] [⟨1, 1, 1, none, "a", true, 0⟩]
      { post_id := 1, user_id := 1, content := "hello", parent_id := some 1 } 3).store :=
  (C1_depth_invariant [1] [1] [⟨1, 1, 1, none, "a", true, 0⟩]
    { post_id := 1, user_id := 1, content := "hello", parent_id := some 1 } 3
    (by decide) (by decide)).2.1

/-- C4: creation with a non-null `parent_id` fails with 404 `NOT_FOUND`
when no comment with that id exists, fails with 400 `INVALID_PARENT` when
the parent exists but belongs to a different post, and a comment is
persisted only when the parent exists and belongs to the same post. -/
theorem C4_parent_validation (posts users : List Nat) (store : List Comment)
    (req : CreateRequest) (now : Nat) (pid : Nat) (hn : IdsNodup store)
    (hv : validCreate req = true) (hp : posts.contains req.post_id = true)
    (hu : users.contains req.user_id = true) (hpid : req.parent_id = some pid) :
    ((∀ c ∈ store, c.id ≠ pid) →
      (createComment posts users store req now).res = .apiError 404 "NOT_FOUND" ∧
      (createComment posts users store req now).store = store) ∧
    (∀ parent ∈ store, parent.id = pid → parent.post_id ≠ req.post_id →
      (createComment posts users store req now).res = .apiError 400 "INVALID_PARENT" ∧
      (createComment posts users store req now).store = store) ∧
    (∀ c, (createComment posts users store req now).res = .created c →
      ∃ parent ∈ store, parent.id = pid ∧ parent.post_id = req.post_id) := by
  refine ⟨?_, ?_, ?_⟩
  · intro h
    have hfind : findByPk store pid = none := findByPk_none.mpr h
    constructor <;>
      simp only [createComment, hv, hp, hu, hpid, hfind, Bool.not_true,
        Bool.false_eq_true, if_false]
  · intro parent hparent hid hpost
    have hfind : findByPk store pid = some parent := by
      rw [← hid]
      exact findByPk_of_mem hn hparent
    have hbne : (parent.post_id != req.post_id) = true := by
      simpa using hpost
    constructor <;>
      simp only [createComment, hv, hp, hu, hpid, hfind, hbne, Bool.not_true,
        Bool.false_eq_true, if_false, if_true]
  · intro c hc
    cases hfind : findByPk store pid with
    | none =>
      rw [show (createComment posts users store req now).res =
          .apiError 404 "NOT_FOUND" by
        simp only [createComment, hv, hp, hu, hpid, hfind, Bool.not_true,
          Bool.false_eq_true, if_false]] at hc
      cases hc
    | some parent =>
      obtain ⟨hpm, hpi⟩ := findByPk_some hfind
      by_cases hpost : parent.post_id = req.post_id
      · exact ⟨parent, hpm, hpi, hpost⟩
      · have hbne : (parent.post_id != req.post_id) = true := by
          simpa using hpost
        rw [show (createComment posts users store req now).res =
            .apiError 400 "INVALID_PARENT" by
          simp only [createComment, hv, hp, hu, hpid, hfind, hbne,
            Bool.not_true, Bool.false_eq_true, if_false, if_true]] at hc
        cases hc

theorem C4_parent_validation_witness :
    (createComment [1] [1] [⟨1, 2, 1, none, "a", true, 0⟩]
      { post_id := 1, user_id := 1, content := "x", parent_id := some 1 } 9).res
      = .apiError 400 "INVALID_PARENT" :=
  ((C4_parent_validation [1] [1] [⟨1, 2, 1, none, "a", true, 0⟩]
      { post_id := 1, user_id := 1, content := "x", parent_id := some 1 } 9 1
      (by decide) (by decide) (by decide) (by decide) rfl).2.1
    ⟨1, 2, 1, none, "a", true, 0⟩ (by decide) rfl (by decide)).1

/-- C8: a creation request whose trimmed content is empty or longer than
2000 characters is rejected with 400 `VALIDATION_ERROR` before any data
access: for every store and every combination of the other fields, the
outcome is the validation error, the store is unchanged, and the access
trace is empty (no post, user, or parent lookup, no insert). -/
theorem C8_validation_before_access (posts users : List Nat)
    (store : List Comment) (req : CreateRequest) (now : Nat)
    (h : (strTrim req.content).length = 0 ∨ 2000 < (strTrim req.content).length) :
    createComment posts users store req now =
      { res := .apiError 400 "VALIDATION_ERROR", store := store, trace := [] } := by
  have hv : validCreate req = false := by
    rw [validCreate]
    rcases h with h | h
    · have h1 : (decide (1 ≤ (strTrim req.content).length)) = false := by
        simp
        omega
      simp [h1]
    · have h1 : (decide ((strTrim req.content).length ≤ 2000)) = false := by
        simp
        omega
      simp [h1]
  simp [createComment, hv]

theorem C8_validation_before_access_witness :
    createComment [7] [8] [⟨1, 7, 8, none, "a", true, 0⟩]
      { post_id := 7, user_id := 8, content := "   ", parent_id := some 1 } 2 =
      { res := .apiError 400 "VALIDATION_ERROR",
        store := [⟨1, 7, 8, none, "a", true, 0⟩], trace := [] } :=
  C8_validation_before_access [7] [8] [⟨1, 7, 8, none, "a", true, 0⟩]
    { post_id := 7, user_id := 8, content := "   ", parent_id := some 1 } 2
    (by decide)

/-! ### Tree builder: basic structure -/

/-- The `rootComments` of the tree build: input comments with null parent. -/
def rootsOf (l : List Comment) : List Comment :=
  l.filter (fun c => c.parent_id == none)

theorem buildForest_eq (l : List Comment) :
    buildForest l = (rootsOf l).map (buildNode l l.length) := rfl

theorem flattenForest_nil : flattenForest [] = [] := rfl

theorem flattenForest_cons (t : CommentTree) (ts : List CommentTree) :
    flattenForest (t :: ts) = flattenTree t ++ flattenForest ts := rfl

theorem flattenTree_node (c : Comment) (rs : List CommentTree) :
    flattenTree (.node c rs) = c :: flattenForest rs := rfl

theorem buildNode_comment (l : List Comment) (f : Nat) (c : Comment) :
    (buildNode l f c).comment = c := by
  cases f <;> rfl

theorem flattenTree_buildNode_cons (l : List Comment) (f : Nat) (c : Comment) :
    ∃ rest, flattenTree (buildNode l f c) = c :: rest := by
  cases f <;> exact ⟨_, rfl⟩

theorem self_mem_flattenTree_buildNode (l : List Comment) (f : Nat) (c : Comment) :
    c ∈ flattenTree (buildNode l f c) := by
  obtain ⟨rest, h⟩ := flattenTree_buildNode_cons l f c
  rw [h]
  exact List.mem_cons_self _ _

theorem mem_flattenForest {x : Comment} {ts : List CommentTree} :
    x ∈ flattenForest ts ↔ ∃ t ∈ ts, x ∈ flattenTree t := by
  induction ts with
  | nil => simp [flattenForest_nil]
  | cons t ts ih =>
    rw [flattenForest_cons, List.mem_append, ih]
    constructor
    · rintro (h | ⟨u, hu, hx⟩)
      · exact ⟨t, List.mem_cons_self _ _, h⟩
      · exact ⟨u, List.mem_cons_of_mem _ hu, hx⟩
    · rintro ⟨u, hu, hx⟩
      rcases List.mem_cons.mp hu with rfl | hu
      · exact Or.inl hx
      · exact Or.inr ⟨u, hu, hx⟩

theorem childrenOf_mem {l : List Comment} {cid : Nat} {ch : Comment}
    (h : ch ∈ childrenOf l cid) : ch ∈ l ∧ ch.parent_id = some cid := by
  have := List.mem_filter.mp h
  refine ⟨this.1, ?_⟩
  simpa using this.2

theorem mem_childrenOf {l : List Comment} {cid : Nat} {ch : Comment}
    (h1 : ch ∈ l) (h2 : ch.parent_id = some cid) : ch ∈ childrenOf l cid := by
  rw [childrenOf, List.mem_filter]
  exact ⟨h1, by simp [h2]⟩

theorem rootsOf_mem {l : List Comment} {c : Comment} (h : c ∈ rootsOf l) :
    c ∈ l ∧ c.parent_id = none := by
  have := List.mem_filter.mp h
  refine ⟨this.1, ?_⟩
  simpa using this.2

theorem mem_rootsOf {l : List Comment} {c : Comment} (h1 : c ∈ l)
    (h2 : c.parent_id = none) : c ∈ rootsOf l := by
  rw [rootsOf, List.mem_filter]
  exact ⟨h1, by simp [h2]⟩

/-- Every comment in a built subtree is the subtree's own root or an input
comment. -/
theorem flattenTree_buildNode_subset (l : List Comment) :
    ∀ f c x, x ∈ flattenTree (buildNode l f c) → x = c ∨ x ∈ l := by
  intro f
  induction f with
  | zero =>
    intro c x hx
    have hx2 : x ∈ [c] := hx
    rw [List.mem_singleton] at hx2
    exact Or.inl hx2
  | succ f ih =>
    intro c x hx
    rw [show buildNode l (f + 1) c =
        .node c ((childrenOf l c.id).map (buildNode l f)) from rfl,
      flattenTree_node] at hx
    rcases List.mem_cons.mp hx with rfl | hx
    · exact Or.inl rfl
    · obtain ⟨t, ht, hxt⟩ := mem_flattenForest.mp hx
      obtain ⟨ch, hch, rfl⟩ := List.mem_map.mp ht
      rcases ih ch x hxt with rfl | h
      · exact Or.inr (childrenOf_mem hch).1
      · exact Or.inr h

/-- Every comment in a built subtree either is the subtree's root or has a
`parent_id` resolving to an input comment. -/
theorem flattenTree_buildNode_parent (l : List Comment) :
    ∀ f c x, c ∈ l → x ∈ flattenTree (buildNode l f c) →
      x = c ∨ ∃ q ∈ l, x.parent_id = some q.id := by
  intro f
  induction f with
  | zero =>
    intro c x _ hx
    have hx2 : x ∈ [c] := hx
    rw [List.mem_singleton] at hx2
    exact Or.inl hx2
  | succ f ih =>
    intro c x hc hx
    rw [show buildNode l (f + 1) c =
        .node c ((childrenOf l c.id).map (buildNode l f)) from rfl,
      flattenTree_node] at hx
    rcases List.mem_cons.mp hx with rfl | hx
    · exact Or.inl rfl
    · obtain ⟨t, ht, hxt⟩ := mem_flattenForest.mp hx
      obtain ⟨ch, hch, rfl⟩ := List.mem_map.mp ht
      obtain ⟨hchl, hchp⟩ := childrenOf_mem hch
      rcases ih ch x hchl hxt with rfl | h
      · exact Or.inr ⟨c, hc, hchp⟩
      · exact Or.inr h

theorem mem_flattenForest_buildForest_subset {l : List Comment} {x : Comment}
    (h : x ∈ flattenForest (buildForest l)) : x ∈ l := by
  rw [buildForest_eq] at h
  obtain ⟨t, ht, hxt⟩ := mem_flattenForest.mp h
  obtain ⟨r, hr, rfl⟩ := List.mem_map.mp ht
  rcases flattenTree_buildNode_subset l l.length r x hxt with rfl | hxl
  · exact (rootsOf_mem hr).1
  · exact hxl

theorem root_mem_flattenForest_buildForest {l : List Comment} {c : Comment}
    (h : c ∈ rootsOf l) : c ∈ flattenForest (buildForest l) := by
  rw [buildForest_eq]
  exact mem_flattenForest.mpr
    ⟨buildNode l l.length c, List.mem_map_of_mem _ h,
      self_mem_flattenTree_buildNode l l.length c⟩

theorem child_mem_flattenForest_buildForest {l : List Comment} {t x : Comment}
    (ht : t ∈ rootsOf l) (hx : x ∈ l) (hp : x.parent_id = some t.id) :
    x ∈ flattenForest (buildForest l) := by
  rw [buildForest_eq]
  refine mem_flattenForest.mpr
    ⟨buildNode l l.length t, List.mem_map_of_mem _ ht, ?_⟩
  obtain ⟨f, hf⟩ : ∃ f, l.length = f + 1 := by
    have : 0 < l.length := List.length_pos.mpr
      (List.ne_nil_of_mem (rootsOf_mem ht).1)
    exact ⟨l.length - 1, by omega⟩
  rw [hf, show buildNode l (f + 1) t =
      .node t ((childrenOf l t.id).map (buildNode l f)) from rfl,
    flattenTree_node]
  refine List.mem_cons_of_mem _ (mem_flattenForest.mpr
    ⟨buildNode l f x, List.mem_map_of_mem _ (mem_childrenOf hx hp), ?_⟩)
  exact self_mem_flattenTree_buildNode l f x

/-- A comment whose non-null `parent_id` does not resolve within the input
is dropped: it appears nowhere in the built forest. -/
theorem orphan_not_mem_buildForest {l : List Comment} {c : Comment} {p : Nat}
    (hp : c.parent_id = some p) (hnr : ∀ q ∈ l, q.id ≠ p) :
    c ∉ flattenForest (buildForest l) := by
  intro h
  rw [buildForest_eq] at h
  obtain ⟨t, ht, hxt⟩ := mem_flattenForest.mp h
  obtain ⟨r, hr, rfl⟩ := List.mem_map.mp ht
  obtain ⟨hrl, hrp⟩ := rootsOf_mem hr
  rcases flattenTree_buildNode_parent l l.length r c hrl hxt with rfl | ⟨q, hq, hqp⟩
  · rw [hrp] at hp
    cases hp
  · rw [hp] at hqp
    exact hnr q hq (by injection hqp with h2; exact h2.symm)

/-! ### Ancestor chains -/

/-- The ancestor chain starting at `x` (itself first), following
`parent_id` through the store, cut off by `fuel`. -/
def ancChain (store : List Comment) : Nat → Comment → List Comment
  | 0, x => [x]
  | f + 1, x =>
    x :: (match x.parent_id with
          | none => []
          | some p =>
            match findByPk store p with
            | none => []
            | some q => ancChain store f q)

/-- The full ancestor chain of `x`: fuel `x.id + 1` suffices when parents
have smaller ids. -/
def chainOf (store : List Comment) (x : Comment) : List Comment :=
  ancChain store (x.id + 1) x

theorem ancChain_succ (store : List Comment) (f : Nat) (x : Comment) :
    ancChain store (f + 1) x =
      x :: (match x.parent_id with
            | none => []
            | some p =>
              match findByPk store p with
              | none => []
              | some q => ancChain store f q) := rfl

theorem ancChain_fuel (store : List Comment) (hlt : ParentLtP store) :
    ∀ n x, x ∈ store → x.id = n → ∀ f g, n < f → n < g →
      ancChain store f x = ancChain store g x := by
  intro n
  induction n using Nat.strong_induction_on with
  | _ n ih =>
    intro x hx hid f g hf hg
    obtain ⟨f, rfl⟩ : ∃ f0, f = f0 + 1 := ⟨f - 1, by omega⟩
    obtain ⟨g, rfl⟩ : ∃ g0, g = g0 + 1 := ⟨g - 1, by omega⟩
    rw [ancChain_succ, ancChain_succ]
    cases hp : x.parent_id with
    | none => simp [hp]
    | some p =>
      cases hq : findByPk store p with
      | none => simp [hp, hq]
      | some q =>
        obtain ⟨hqm, hqi⟩ := findByPk_some hq
        have hpl : p < x.id := parent_lt_of hlt hx hp
        simp only [hp, hq]
        rw [ih q.id (by omega) q hqm rfl f g (by omega) (by omega)]

theorem chainOf_root {store : List Comment} {x : Comment}
    (hp : x.parent_id = none) : chainOf store x = [x] := by
  rw [chainOf, ancChain_succ]
  simp [hp]

theorem chainOf_unres {store : List Comment} {x : Comment} {p : Nat}
    (hp : x.parent_id = some p) (hq : findByPk store p = none) :
    chainOf store x = [x] := by
  rw [chainOf, ancChain_succ]
  simp [hp, hq]

theorem chainOf_step {store : List Comment} (hlt : ParentLtP store)
    {x q : Comment} {p : Nat} (hx : x ∈ store) (hp : x.parent_id = some p)
    (hq : findByPk store p = some q) :
    chainOf store x = x :: chainOf store q := by
  rw [chainOf, ancChain_succ]
  obtain ⟨hqm, hqi⟩ := findByPk_some hq
  have hpl : p < x.id := parent_lt_of hlt hx hp
  simp only [hp, hq]
  congr 1
  exact ancChain_fuel store hlt q.id q hqm rfl x.id (q.id + 1)
    (by omega) (by omega)

theorem self_mem_chainOf (store : List Comment) (x : Comment) :
    x ∈ chainOf store x := by
  rw [chainOf, ancChain_succ]
  exact List.mem_cons_self _ _

theorem mem_chain_cases {store : List Comment} (hlt : ParentLtP store)
    {x y : Comment} (hx : x ∈ store) (hy : y ∈ chainOf store x) :
    y = x ∨ ∃ p q, x.parent_id = some p ∧ findByPk store p = some q ∧
      y ∈ chainOf store q := by
  cases hp : x.parent_id with
  | none =>
    rw [chainOf_root hp] at hy
    exact Or.inl (List.mem_singleton.mp hy)
  | some p =>
    cases hq : findByPk store p with
    | none =>
      rw [chainOf_unres hp hq] at hy
      exact Or.inl (List.mem_singleton.mp hy)
    | some q =>
      rw [chainOf_step hlt hx hp hq] at hy
      rcases List.mem_cons.mp hy with rfl | h
      · exact Or.inl rfl
      · exact Or.inr ⟨p, q, rfl, hq, h⟩

theorem mem_chainOf_mem {store : List Comment} (hlt : ParentLtP store) :
    ∀ n x, x ∈ store → x.id = n → ∀ y ∈ chainOf store x, y ∈ store := by
  intro n
  induction n using Nat.strong_induction_on with
  | _ n ih =>
    intro x hx hid y hy
    rcases mem_chain_cases hlt hx hy with rfl | ⟨p, q, hp, hq, hyq⟩
    · exact hx
    · obtain ⟨hqm, hqi⟩ := findByPk_some hq
      have hpl : p < x.id := parent_lt_of hlt hx hp
      exact ih q.id (by omega) q hqm rfl y hyq

theorem mem_chainOf_id_le {store : List Comment} (hlt : ParentLtP store) :
    ∀ n x, x ∈ store → x.id = n → ∀ y ∈ chainOf store x, y.id ≤ x.id := by
  intro n
  induction n using Nat.strong_induction_on with
  | _ n ih =>
    intro x hx hid y hy
    rcases mem_chain_cases hlt hx hy with rfl | ⟨p, q, hp, hq, hyq⟩
    · exact Nat.le_refl _
    · obtain ⟨hqm, hqi⟩ := findByPk_some hq
      have hpl : p < x.id := parent_lt_of hlt hx hp
      have := ih q.id (by omega) q hqm rfl y hyq
      omega

theorem chainOf_sub {store : List Comment} (hlt : ParentLtP store) :
    ∀ n x, x ∈ store → x.id = n → ∀ y ∈ chainOf store x,
      ∀ z ∈ chainOf store y, z ∈ chainOf store x := by
  intro n
  induction n using Nat.strong_induction_on with
  | _ n ih =>
    intro x hx hid y hy z hz
    rcases mem_chain_cases hlt hx hy with rfl | ⟨p, q, hp, hq, hyq⟩
    · exact hz
    · obtain ⟨hqm, hqi⟩ := findByPk_some hq
      have hpl : p < x.id := parent_lt_of hlt hx hp
      rw [chainOf_step hlt hx hp hq]
      exact List.mem_cons_of_mem _ (ih q.id (by omega) q hqm rfl y hyq z hz)

theorem id_inj {store : List Comment} (hn : IdsNodup store) {a b : Comment}
    (ha : a ∈ store) (hb : b ∈ store) (h : a.id = b.id) : a = b := by
  have h1 := findByPk_of_mem hn ha
  have h2 := findByPk_of_mem hn hb
  rw [h, h2] at h1
  injection h1 with he
  exact he.symm

theorem child_chain_mem {store : List Comment} (hn : IdsNodup store)
    (hlt : ParentLtP store) {z c : Comment} (hz : z ∈ store) (hc : c ∈ store)
    (hp : z.parent_id = some c.id) : c ∈ chainOf store z := by
  rw [chainOf_step hlt hz hp (findByPk_of_mem hn hc)]
  exact List.mem_cons_of_mem _ (self_mem_chainOf store c)

theorem chain_unique_child {store : List Comment} (hn : IdsNodup store)
    (hlt : ParentLtP store) :
    ∀ n x, x ∈ store → x.id = n → ∀ c ∈ store, c ∈ chainOf store x → c ≠ x →
      ∃ y, y ∈ store ∧ y.parent_id = some c.id ∧ y ∈ chainOf store x ∧
        ∀ z ∈ store, z.parent_id = some c.id → z ∈ chainOf store x → z = y := by
  intro n
  induction n using Nat.strong_induction_on with
  | _ n ih =>
    intro x hx hid c hcs hcx hcne
    rcases mem_chain_cases hlt hx hcx with rfl | ⟨p, q, hp, hq, hcq⟩
    · exact absurd rfl hcne
    obtain ⟨hqm, hqi⟩ := findByPk_some hq
    have hpl : p < x.id := parent_lt_of hlt hx hp
    by_cases hqc : q = c
    · subst hqc
      refine ⟨x, hx, by rw [hp, hqi], self_mem_chainOf store x, ?_⟩
      intro z hzs hzp hzx
      rcases mem_chain_cases hlt hx hzx with rfl | ⟨p2, q2, hp2, hq2, hzq⟩
      · rfl
      · rw [hp] at hp2
        injection hp2 with he
        subst he
        rw [hq] at hq2
        injection hq2 with he2
        subst he2
        have hzle : z.id ≤ q.id := mem_chainOf_id_le hlt q.id q hqm rfl z hzq
        have hzgt : q.id < z.id := parent_lt_of hlt hzs hzp
        exact absurd hzle (by omega)
    · obtain ⟨y, hys, hyp, hyc, huniq⟩ :=
        ih q.id (by omega) q hqm rfl c hcs hcq (fun h => hqc h.symm)
      refine ⟨y, hys, hyp, ?_, ?_⟩
      · rw [chainOf_step hlt hx hp hq]
        exact List.mem_cons_of_mem _ hyc
      · intro z hzs hzp hzx
        rcases mem_chain_cases hlt hx hzx with rfl | ⟨p2, q2, hp2, hq2, hzq⟩
        · rw [hp] at hzp
          injection hzp with he
          exact absurd (id_inj hn hqm hcs (by omega)) hqc
        · rw [hp] at hp2
          injection hp2 with he
          subst he
          rw [hq] at hq2
          injection hq2 with he2
          subst he2
          exact huniq z hzs hzp hzq

/-- The root the ancestor walk from `x` reaches. -/
def rootAux (store : List Comment) : Nat → Comment → Comment
  | 0, x => x
  | f + 1, x =>
    match x.parent_id with
    | none => x
    | some p =>
      match findByPk store p with
      | none => x
      | some q => rootAux store f q

def rootOf (store : List Comment) (x : Comment) : Comment :=
  rootAux store (x.id + 1) x

theorem rootAux_succ (store : List Comment) (f : Nat) (x : Comment) :
    rootAux store (f + 1) x =
      match x.parent_id with
      | none => x
      | some p =>
        match findByPk store p with
        | none => x
        | some q => rootAux store f q := rfl

theorem rootAux_fuel (store : List Comment) (hlt : ParentLtP store) :
    ∀ n x, x ∈ store → x.id = n → ∀ f g, n < f → n < g →
      rootAux store f x = rootAux store g x := by
  intro n
  induction n using Nat.strong_induction_on with
  | _ n ih =>
    intro x hx hid f g hf hg
    obtain ⟨f, rfl⟩ : ∃ f0, f = f0 + 1 := ⟨f - 1, by omega⟩
    obtain ⟨g, rfl⟩ : ∃ g0, g = g0 + 1 := ⟨g - 1, by omega⟩
    rw [rootAux_succ, rootAux_succ]
    cases hp : x.parent_id with
    | none => simp [hp]
    | some p =>
      cases hq : findByPk store p with
      | none => simp [hp, hq]
      | some q =>
        obtain ⟨hqm, hqi⟩ := findByPk_some hq
        have hpl : p < x.id := parent_lt_of hlt hx hp
        simp only [hp, hq]
        exact ih q.id (by omega) q hqm rfl f g (by omega) (by omega)

theorem rootOf_rootcase {store : List Comment} {x : Comment}
    (hp : x.parent_id = none) : rootOf store x = x := by
  rw [rootOf, rootAux_succ]
  simp [hp]

theorem rootOf_unres {store : List Comment} {x : Comment} {p : Nat}
    (hp : x.parent_id = some p) (hq : findByPk store p = none) :
    rootOf store x = x := by
  rw [rootOf, rootAux_succ]
  simp [hp, hq]

theorem rootOf_step {store : List Comment} (hlt : ParentLtP store)
    {x q : Comment} {p : Nat} (hx : x ∈ store) (hp : x.parent_id = some p)
    (hq : findByPk store p = some q) : rootOf store x = rootOf store q := by
  rw [rootOf, rootAux_succ]
  obtain ⟨hqm, hqi⟩ := findByPk_some hq
  have hpl : p < x.id := parent_lt_of hlt hx hp
  simp only [hp, hq]
  exact rootAux_fuel store hlt q.id q hqm rfl x.id (q.id + 1)
    (by omega) (by omega)

theorem rootOf_mem_chain {store : List Comment} (hlt : ParentLtP store) :
    ∀ n x, x ∈ store → x.id = n → rootOf store x ∈ chainOf store x := by
  intro n
  induction n using Nat.strong_induction_on with
  | _ n ih =>
    intro x hx hid
    cases hp : x.parent_id with
    | none =>
      rw [rootOf_rootcase hp, chainOf_root hp]
      exact List.mem_singleton.mpr rfl
    | some p =>
      cases hq : findByPk store p with
      | none =>
        rw [rootOf_unres hp hq, chainOf_unres hp hq]
        exact List.mem_singleton.mpr rfl
      | some q =>
        obtain ⟨hqm, hqi⟩ := findByPk_some hq
        have hpl : p < x.id := parent_lt_of hlt hx hp
        rw [rootOf_step hlt hx hp hq, chainOf_step hlt hx hp hq]
        exact List.mem_cons_of_mem _ (ih q.id (by omega) q hqm rfl)

theorem rootOf_mem {store : List Comment} (hlt : ParentLtP store)
    {x : Comment} (hx : x ∈ store) : rootOf store x ∈ store :=
  mem_chainOf_mem hlt x.id x hx rfl _ (rootOf_mem_chain hlt x.id x hx rfl)

theorem rootOf_parent_none {store : List Comment} (hlt : ParentLtP store)
    (hres : ResolvesP store) :
    ∀ n x, x ∈ store → x.id = n → (rootOf store x).parent_id = none := by
  intro n
  induction n using Nat.strong_induction_on with
  | _ n ih =>
    intro x hx hid
    cases hp : x.parent_id with
    | none => rw [rootOf_rootcase hp, hp]
    | some p =>
      cases hq : findByPk store p with
      | none =>
        obtain ⟨q, hqm, hqi⟩ := resolves_of hres hx hp
        exact absurd hqi (findByPk_none.mp hq q hqm)
      | some q =>
        obtain ⟨hqm, hqi⟩ := findByPk_some hq
        have hpl : p < x.id := parent_lt_of hlt hx hp
        rw [rootOf_step hlt hx hp hq]
        exact ih q.id (by omega) q hqm rfl

theorem root_unique_in_chain {store : List Comment} (hlt : ParentLtP store) :
    ∀ n x, x ∈ store → x.id = n → ∀ r ∈ chainOf store x,
      r.parent_id = none → r = rootOf store x := by
  intro n
  induction n using Nat.strong_induction_on with
  | _ n ih =>
    intro x hx hid r hr hrn
    cases hp : x.parent_id with
    | none =>
      rw [chainOf_root hp] at hr
      rw [List.mem_singleton.mp hr, rootOf_rootcase hp]
    | some p =>
      cases hq : findByPk store p with
      | none =>
        rw [chainOf_unres hp hq] at hr
        rw [List.mem_singleton.mp hr, rootOf_unres hp hq]
      | some q =>
        rw [chainOf_step hlt hx hp hq] at hr
        rcases List.mem_cons.mp hr with rfl | hr
        · rw [hp] at hrn
          cases hrn
        · obtain ⟨hqm, hqi⟩ := findByPk_some hq
          have hpl : p < x.id := parent_lt_of hlt hx hp
          rw [rootOf_step hlt hx hp hq]
          exact ih q.id (by omega) q hqm rfl r hr hrn

/-! ### Counting comments in the built forest -/

theorem countP_lt_of_witness {α : Type} (p q : α → Bool) :
    ∀ cs : List α, (∃ x ∈ cs, q x = true ∧ p x = false) →
      (∀ z ∈ cs, p z = true → q z = true) → cs.countP p < cs.countP q := by
  intro cs
  induction cs with
  | nil =>
    rintro ⟨x, hx, _⟩ _
    cases hx
  | cons a t ih =>
    rintro ⟨x, hx, hqx, hpx⟩ himp
    rw [List.countP_cons, List.countP_cons]
    have hmono : t.countP p ≤ t.countP q :=
      List.countP_mono_left (fun z hz hpz => himp z (List.mem_cons_of_mem _ hz) hpz)
    rcases List.mem_cons.mp hx with rfl | hxt
    · rw [hpx, hqx]
      simp
      omega
    · have hlt := ih ⟨x, hxt, hqx, hpx⟩
        (fun z hz => himp z (List.mem_cons_of_mem _ hz))
      by_cases hpa : p a = true
      · rw [hpa, himp a (List.mem_cons_self _ _) hpa]
        omega
      · rw [Bool.not_eq_true] at hpa
        rw [hpa]
        cases hqa : q a <;> simp <;> omega

/-- Number of input comments with a larger id than `c`: the recursion
measure of the tree build under the parent-id discipline. -/
def cntAbove (l : List Comment) (c : Comment) : Nat :=
  l.countP (fun x => decide (c.id < x.id))

theorem cntAbove_lt_length {l : List Comment} {c : Comment} (hc : c ∈ l) :
    cntAbove l c < l.length := by
  have h := countP_lt_of_witness (fun x => decide (c.id < x.id)) (fun _ => true) l
    ⟨c, hc, rfl, by simp⟩ (fun z _ _ => rfl)
  simpa [cntAbove] using h

theorem cntAbove_child_lt {l : List Comment} {c x : Comment} (hx : x ∈ l)
    (h : c.id < x.id) : cntAbove l x < cntAbove l c := by
  apply countP_lt_of_witness _ _ l ⟨x, hx, by simp [h], by simp⟩
  intro z hz hpz
  simp at hpz ⊢
  omega

theorem count_flattenForest_map (l : List Comment) (f : Nat) (cs : List Comment)
    (x : Comment) :
    (flattenForest (cs.map (buildNode l f))).count x =
      (cs.map (fun ch => (flattenTree (buildNode l f ch)).count x)).sum := by
  induction cs with
  | nil => simp [flattenForest_nil]
  | cons a t ih => simp [flattenForest_cons, List.count_append, ih]

theorem sum_map_ite (cs : List Comment) (P : Comment → Prop) [DecidablePred P] :
    (cs.map (fun ch => if P ch then 1 else 0)).sum =
      cs.countP (fun ch => decide (P ch)) := by
  induction cs with
  | nil => rfl
  | cons a t ih =>
    rw [List.map_cons, List.sum_cons, List.countP_cons, ih]
    by_cases h : P a <;> simp [h] <;> omega

theorem countP_eq_one_of_unique (cs : List Comment) (p : Comment → Bool)
    (y : Comment) (hnd : cs.Nodup) (hy : y ∈ cs) (hpy : p y = true)
    (huniq : ∀ z ∈ cs, p z = true → z = y) : cs.countP p = 1 := by
  induction cs with
  | nil => cases hy
  | cons a t ih =>
    rw [List.countP_cons]
    have hnd' := List.nodup_cons.mp hnd
    rcases List.mem_cons.mp hy with rfl | hyt
    · have h0 : t.countP p = 0 := by
        apply List.countP_eq_zero.mpr
        intro z hz hpz
        have hza := huniq z (List.mem_cons_of_mem _ hz) hpz
        rw [hza] at hz
        exact absurd hz hnd'.1
      rw [h0, hpy]
      simp
    · have hpa : p a = false := by
        by_contra hcon
        rw [Bool.not_eq_false] at hcon
        have hay := huniq a (List.mem_cons_self _ _) hcon
        rw [← hay] at hyt
        exact hnd'.1 hyt
      rw [hpa]
      simp only [Bool.false_eq_true, if_false, Nat.add_zero]
      exact ih hnd'.2 hyt (fun z hz => huniq z (List.mem_cons_of_mem _ hz))

theorem count_flattenTree_buildNode (l : List Comment) (hn : IdsNodup l)
    (hlt : ParentLtP l) :
    ∀ f c x, c ∈ l → x ∈ l → cntAbove l c < f →
      (flattenTree (buildNode l f c)).count x =
        if c ∈ chainOf l x then 1 else 0 := by
  have hnodup : l.Nodup := List.Nodup.of_map _ hn
  intro f
  induction f with
  | zero =>
    intro c x _ _ h
    exact absurd h (Nat.not_lt_zero _)
  | succ f ih =>
    intro c x hc hx hcnt
    rw [show buildNode l (f + 1) c =
        .node c ((childrenOf l c.id).map (buildNode l f)) from rfl,
      flattenTree_node, List.count_cons, count_flattenForest_map]
    have hchprop : ∀ ch ∈ childrenOf l c.id,
        (flattenTree (buildNode l f ch)).count x =
          if ch ∈ chainOf l x then 1 else 0 := by
      intro ch hch
      obtain ⟨hchl, hchp⟩ := childrenOf_mem hch
      have hcid : c.id < ch.id := parent_lt_of hlt hchl hchp
      refine ih ch x hchl hx ?_
      have := cntAbove_child_lt hchl hcid
      omega
    rw [List.map_congr_left hchprop, sum_map_ite]
    by_cases hcx : c ∈ chainOf l x
    · by_cases hxc : x = c
      · subst hxc
        have h0 : (childrenOf l x.id).countP
            (fun ch => decide (ch ∈ chainOf l x)) = 0 := by
          apply List.countP_eq_zero.mpr
          intro ch hch hdec
          rw [decide_eq_true_eq] at hdec
          obtain ⟨hchl, hchp⟩ := childrenOf_mem hch
          have h1 : ch.id ≤ x.id := mem_chainOf_id_le hlt x.id x hx rfl ch hdec
          have h2 : x.id < ch.id := parent_lt_of hlt hchl hchp
          omega
        rw [h0]
        simp [hcx]
      · obtain ⟨y, hys, hyp, hyc, huniq⟩ :=
          chain_unique_child hn hlt x.id x hx rfl c hc hcx (fun h => hxc h.symm)
        have h1 : (childrenOf l c.id).countP
            (fun ch => decide (ch ∈ chainOf l x)) = 1 := by
          refine countP_eq_one_of_unique _ _ y (hnodup.filter _)
            (mem_childrenOf hys hyp) (by simp [hyc]) ?_
          intro z hz hdec
          obtain ⟨hzl, hzp⟩ := childrenOf_mem hz
          rw [decide_eq_true_eq] at hdec
          exact huniq z hzl hzp hdec
        have hne : (c == x) = false := by
          rw [beq_eq_false_iff_ne]
          exact fun h => hxc h.symm
        rw [h1]
        simp [hne, hcx]
    · have hxc : (c == x) = false := by
        rw [beq_eq_false_iff_ne]
        intro h
        rw [h] at hcx
        exact hcx (self_mem_chainOf l x)
      have h0 : (childrenOf l c.id).countP
          (fun ch => decide (ch ∈ chainOf l x)) = 0 := by
        apply List.countP_eq_zero.mpr
        intro ch hch hdec
        rw [decide_eq_true_eq] at hdec
        obtain ⟨hchl, hchp⟩ := childrenOf_mem hch
        have hcin : c ∈ chainOf l ch := child_chain_mem hn hlt hchl hc hchp
        exact hcx (chainOf_sub hlt x.id x hx rfl ch hdec c hcin)
      rw [h0]
      simp [hxc, hcx]

theorem count_flatten_buildForest (l : List Comment) (hn : IdsNodup l)
    (hlt : ParentLtP l) (x : Comment) (hx : x ∈ l) :
    (flattenForest (buildForest l)).count x =
      (rootsOf l).countP (fun r => decide (r ∈ chainOf l x)) := by
  rw [buildForest_eq, count_flattenForest_map]
  have h : ∀ r ∈ rootsOf l,
      (flattenTree (buildNode l l.length r)).count x =
        if r ∈ chainOf l x then 1 else 0 := by
    intro r hr
    exact count_flattenTree_buildNode l hn hlt l.length r x (rootsOf_mem hr).1 hx
      (cntAbove_lt_length (rootsOf_mem hr).1)
  rw [List.map_congr_left h, sum_map_ite]

/-- When ids are unique and every parent resolves (to a smaller id), the
pre-order flattening of the built forest is a permutation of the input. -/
theorem flatten_buildForest_perm (l : List Comment) (hn : IdsNodup l)
    (hlt : ParentLtP l) (hres : ResolvesP l) :
    List.Perm (flattenForest (buildForest l)) l := by
  have hnodup : l.Nodup := List.Nodup.of_map _ hn
  rw [List.perm_iff_count]
  intro x
  by_cases hx : x ∈ l
  · rw [count_flatten_buildForest l hn hlt x hx,
      List.count_eq_one_of_mem hnodup hx]
    refine countP_eq_one_of_unique _ _ (rootOf l x) (hnodup.filter _) ?_ ?_ ?_
    · exact mem_rootsOf (rootOf_mem hlt hx)
        (rootOf_parent_none hlt hres x.id x hx rfl)
    · simp [rootOf_mem_chain hlt x.id x hx rfl]
    · intro z hz hdec
      rw [decide_eq_true_eq] at hdec
      exact root_unique_in_chain hlt x.id x hx rfl z hdec (rootsOf_mem hz).2
  · rw [List.count_eq_zero.mpr hx, List.count_eq_zero.mpr
      (fun hmem => hx (mem_flattenForest_buildForest_subset hmem))]

/-! ### Pre-order: parents precede their subtrees -/

theorem flattenForest_mem_split (ts : List CommentTree) (x : Comment)
    (h : x ∈ flattenForest ts) :
    ∃ t ∈ ts, ∃ pre post, flattenForest ts = pre ++ flattenTree t ++ post ∧
      x ∈ flattenTree t := by
  induction ts with
  | nil => exact absurd h (by rw [flattenForest_nil]; simp)
  | cons t ts ih =>
    rw [flattenForest_cons] at h
    rcases List.mem_append.mp h with h | h
    · refine ⟨t, List.mem_cons_self _ _, [], flattenForest ts, ?_, h⟩
      rw [flattenForest_cons]
      simp
    · obtain ⟨u, hu, pre, post, heq, hx⟩ := ih h
      refine ⟨u, List.mem_cons_of_mem _ hu, flattenTree t ++ pre, post, ?_, hx⟩
      rw [flattenForest_cons, heq]
      simp [List.append_assoc]

theorem flattenTree_buildNode_parent_before (l : List Comment) :
    ∀ f r x, x ∈ flattenTree (buildNode l f r) →
      x = r ∨ ∃ a b, flattenTree (buildNode l f r) = a ++ x :: b ∧
        ∃ p ∈ a, x.parent_id = some p.id := by
  intro f
  induction f with
  | zero =>
    intro r x hx
    have hx2 : x ∈ [r] := hx
    exact Or.inl (List.mem_singleton.mp hx2)
  | succ f ih =>
    intro r x hx
    rw [show buildNode l (f + 1) r =
        .node r ((childrenOf l r.id).map (buildNode l f)) from rfl,
      flattenTree_node] at hx
    rcases List.mem_cons.mp hx with rfl | hx
    · exact Or.inl rfl
    · obtain ⟨t, ht, pre, post, heq, hxt⟩ := flattenForest_mem_split _ x hx
      obtain ⟨ch, hch, rfl⟩ := List.mem_map.mp ht
      obtain ⟨hchl, hchp⟩ := childrenOf_mem hch
      rcases ih ch x hxt with rfl | ⟨a, b, heq2, p, hpa, hpp⟩
      · obtain ⟨rest, hrest⟩ := flattenTree_buildNode_cons l f x
        refine Or.inr ⟨r :: pre, rest ++ post, ?_, r, List.mem_cons_self _ _, hchp⟩
        rw [show buildNode l (f + 1) r =
            .node r ((childrenOf l r.id).map (buildNode l f)) from rfl,
          flattenTree_node, heq, hrest]
        simp
      · refine Or.inr ⟨r :: pre ++ a, b ++ post, ?_, p, by simp [hpa], hpp⟩
        rw [show buildNode l (f + 1) r =
            .node r ((childrenOf l r.id).map (buildNode l f)) from rfl,
          flattenTree_node, heq, heq2]
        simp [List.append_assoc]

theorem buildForest_parent_before (l : List Comment) (x : Comment) (pid : Nat)
    (hx : x ∈ flattenForest (buildForest l)) (hp : x.parent_id = some pid) :
    ∃ l1 l2, flattenForest (buildForest l) = l1 ++ x :: l2 ∧
      ∃ p ∈ l1, p.id = pid := by
  obtain ⟨t, ht, pre, post, heq, hxt⟩ := flattenForest_mem_split _ x hx
  rw [buildForest_eq] at ht
  obtain ⟨r, hr, rfl⟩ := List.mem_map.mp ht
  rcases flattenTree_buildNode_parent_before l l.length r x hxt with
    rfl | ⟨a, b, heq2, p, hpa, hpp⟩
  · rw [(rootsOf_mem hr).2] at hp
    cases hp
  · refine ⟨pre ++ a, b ++ post, ?_, p, by simp [hpa], ?_⟩
    · rw [heq, heq2]
      simp [List.append_assoc]
    · rw [hp] at hpp
      injection hpp with h
      exact h.symm

/-- A comment whose parent was excluded from the working set. -/
def orphanA : Comment := ⟨2, 1, 1, some 1, "orphan-a", true, 0⟩

/-- C2 counterexample: the tree build does *not* fall back to the root
list for an orphan — a comment whose `parent_id` does not resolve within
the provided set is appended nowhere and vanishes from the built forest. -/
theorem C2_counterexample : orphanA ∉ flattenForest (buildForest [orphanA]) := by
  decide

/-- C2 (amended): the tree build appends each node to its parent's
`replies` when its `parent_id` resolves in the provided set, and to the
root-level list when `parent_id` is null; a node whose non-null
`parent_id` does not resolve is appended to neither and is absent from
the built forest (it is dropped, not degraded to a root).  When every
parent resolves, no input node is absent. -/
theorem C2_tree_membership (l : List Comment) (hn : IdsNodup l)
    (hlt : ParentLtP l) :
    (∀ c ∈ l, c.parent_id = none → c ∈ flattenForest (buildForest l)) ∧
    (ResolvesP l → ∀ c ∈ l, c ∈ flattenForest (buildForest l)) ∧
    (∀ c ∈ l, ∀ p, c.parent_id = some p → (∀ q ∈ l, q.id ≠ p) →
      c ∉ flattenForest (buildForest l)) := by
  refine ⟨?_, ?_, ?_⟩
  · intro c hc hp
    exact root_mem_flattenForest_buildForest (mem_rootsOf hc hp)
  · intro hres c hc
    exact (flatten_buildForest_perm l hn hlt hres).mem_iff.mpr hc
  · intro c _ p hp hnr
    exact orphan_not_mem_buildForest hp hnr

theorem C2_tree_membership_witness :
    (⟨2, 1, 1, some 1, "b", true, 1⟩ : Comment) ∈
      flattenForest (buildForest
        [⟨1, 1, 1, none, "a", true, 0⟩, ⟨2, 1, 1, some 1, "b", true, 1⟩]) :=
  (C2_tree_membership
      [⟨1, 1, 1, none, "a", true, 0⟩, ⟨2, 1, 1, some 1, "b", true, 1⟩]
      (by decide) (by decide)).2.1 (by decide) _ (by decide)

/-- A different orphaned comment, for the round-trip claim. -/
def orphanB : Comment := ⟨7, 3, 2, some 3, "orphan-b", true, 5⟩

/-- C6 counterexample: for an input whose only comment has an unresolved
parent, the flattened forest is empty, so it is not a permutation of the
input. -/
theorem C6_counterexample :
    ¬ List.Perm (flattenForest (buildForest [orphanB])) [orphanB] := by
  decide

/-- C6 (amended): when ids are unique, parents precede their children and
every non-null `parent_id` resolves within the input, the pre-order
flattening of the built forest is a permutation of the input in which
every node with a parent is preceded by that parent. -/
theorem C6_roundtrip (l : List Comment) (hn : IdsNodup l) (hlt : ParentLtP l)
    (hres : ResolvesP l) :
    List.Perm (flattenForest (buildForest l)) l ∧
    (∀ c ∈ flattenForest (buildForest l), ∀ pid, c.parent_id = some pid →
      ∃ l1 l2, flattenForest (buildForest l) = l1 ++ c :: l2 ∧
        ∃ p ∈ l1, p.id = pid) := by
  refine ⟨flatten_buildForest_perm l hn hlt hres, ?_⟩
  intro c hc pid hp
  exact buildForest_parent_before l c pid hc hp

theorem C6_roundtrip_witness :
    List.Perm
      (flattenForest (buildForest
        [⟨1, 1, 1, none, "a", true, 0⟩, ⟨2, 1, 1, some 1, "b", true, 1⟩,
         ⟨3, 1, 1, some 1, "c", true, 2⟩]))
      [⟨1, 1, 1, none, "a", true, 0⟩, ⟨2, 1, 1, some 1, "b", true, 1⟩,
       ⟨3, 1, 1, some 1, "c", true, 2⟩] :=
  (C6_roundtrip
    [⟨1, 1, 1, none, "a", true, 0⟩, ⟨2, 1, 1, some 1, "b", true, 1⟩,
     ⟨3, 1, 1, some 1, "c", true, 2⟩]
    (by decide) (by decide) (by decide)).1

/-! ### Sort consistency -/

theorem adjOk_of_pairwise (r : Nat → Nat → Bool) :
    ∀ ks : List Nat, ks.Pairwise (fun a b => r a b = true) → adjOk r ks = true := by
  intro ks
  induction ks with
  | nil => intro _; rfl
  | cons a t ih =>
    intro h
    cases t with
    | nil => rfl
    | cons b t2 =>
      have hp := List.pairwise_cons.mp h
      rw [show adjOk r (a :: b :: t2) = (r a b && adjOk r (b :: t2)) from rfl,
        hp.1 b (List.mem_cons_self _ _), ih hp.2]
      rfl

theorem sortTree_comment (dir : SortPar) (t : CommentTree) :
    (sortTree dir t).comment = t.comment := by
  cases t
  rfl

theorem sortForest_eq_map (dir : SortPar) :
    ∀ ts, sortForest dir ts = ts.map (sortTree dir) := by
  intro ts
  induction ts with
  | nil => rfl
  | cons t ts ih =>
    rw [show sortForest dir (t :: ts) = sortTree dir t :: sortForest dir ts
      from rfl, ih, List.map_cons]

theorem sortForest_keys (dir : SortPar) (ts : List CommentTree) :
    (sortForest dir ts).map (fun t => t.comment.created_at) =
      ts.map (fun t => t.comment.created_at) := by
  rw [sortForest_eq_map, List.map_map]
  apply List.map_congr_left
  intro t _
  simp [Function.comp, sortTree_comment]

theorem buildForest_keys (l : List Comment) :
    (buildForest l).map (fun t => t.comment.created_at) =
      (rootsOf l).map (fun r => r.created_at) := by
  rw [buildForest_eq, List.map_map]
  apply List.map_congr_left
  intro r _
  simp [Function.comp, buildNode_comment]

theorem commentLe_dirOk (dir : SortPar) (a b : Comment) :
    commentLe dir a b ↔ dirOk dir a.created_at b.created_at = true := by
  cases dir <;> simp [commentLe, dirOk]

theorem levelsSorted_of_sorted_images (dir : SortPar) :
    ∀ f (ts : List CommentTree),
      (∀ t ∈ ts, ∃ t0, t = sortTree dir t0) →
      adjOk (dirOk dir) (ts.map (fun t => t.comment.created_at)) = true →
      levelsSorted (dirOk dir) f ts = true := by
  intro f
  induction f with
  | zero => intro ts _ _; rfl
  | succ f ih =>
    intro ts himg hadj
    rw [show levelsSorted (dirOk dir) (f + 1) ts =
        (adjOk (dirOk dir) (ts.map (fun t => t.comment.created_at)) &&
          ts.all (fun t => levelsSorted (dirOk dir) f t.replies)) from rfl,
      hadj]
    simp only [Bool.true_and]
    rw [List.all_eq_true]
    intro t ht
    obtain ⟨t0, rfl⟩ := himg t ht
    cases t0 with
    | node c rs =>
      rw [show (sortTree dir (.node c rs)).replies =
          List.insertionSort (treeLe dir) (sortForest dir rs) from rfl]
      apply ih
      · intro u hu
        rw [List.mem_insertionSort, sortForest_eq_map] at hu
        obtain ⟨u0, _, rfl⟩ := List.mem_map.mp hu
        exact ⟨u0, rfl⟩
      · have hs : List.Sorted (treeLe dir)
            (List.insertionSort (treeLe dir) (sortForest dir rs)) :=
          List.sorted_insertionSort _ _
        apply adjOk_of_pairwise
        exact List.Pairwise.map _
          (fun a b hab => (commentLe_dirOk dir _ _).mp hab) hs

/-- C5: in the tree returned by the comment-listing route, at every level
of nesting (root list and every `replies` list) sibling creation
timestamps are non-increasing for `sort=newest` and non-decreasing for
`sort=oldest` (`dirOk` is exactly that adjacent comparison), for every
store. -/
theorem C5_sort_consistency (posts : List Nat) (store : List Comment)
    (postId : Nat) (dir : SortPar) (limit : Nat) (d : PostCommentsData)
    (h : getPostComments posts store postId dir limit = .ok d) :
    ∀ f, levelsSorted (dirOk dir) f d.comments = true := by
  intro f
  by_cases hp : posts.contains postId = true
  · rw [getPostComments] at h
    simp only [hp, Bool.not_true, Bool.false_eq_true, if_false] at h
    injection h with h2
    subst h2
    apply levelsSorted_of_sorted_images
    · intro t ht
      rw [sortForest_eq_map] at ht
      obtain ⟨t0, _, rfl⟩ := List.mem_map.mp ht
      exact ⟨t0, rfl⟩
    · rw [sortForest_keys, buildForest_keys]
      apply adjOk_of_pairwise
      have hsorted : List.Sorted (commentLe dir)
          ((List.insertionSort (commentLe dir)
            (store.filter (fun c => c.post_id == postId && c.is_published))).take
              limit) :=
        (List.sorted_insertionSort _ _).sublist (List.take_sublist _ _)
      have hroots : List.Sorted (commentLe dir)
          (rootsOf ((List.insertionSort (commentLe dir)
            (store.filter (fun c => c.post_id == postId && c.is_published))).take
              limit)) :=
        hsorted.sublist (List.filter_sublist _)
      exact List.Pairwise.map _
        (fun a b hab => (commentLe_dirOk dir _ _).mp hab) hroots
  · have hp2 : posts.contains postId = false := by
      simpa using hp
    rw [getPostComments] at h
    simp only [hp2, Bool.not_false, if_true] at h
    simp at h

theorem C5_sort_consistency_witness :
    levelsSorted (dirOk .newest) 5
      (PostCommentsData.mk 1
        [.node ⟨1, 1, 1, none, "a", true, 5⟩
          [.node ⟨2, 1, 1, some 1, "b", true, 9⟩ [],
           .node ⟨3, 1, 1, some 1, "c", true, 7⟩ []]] 3).comments = true :=
  C5_sort_consistency [1]
    [⟨1, 1, 1, none, "a", true, 5⟩, ⟨2, 1, 1, some 1, "b", true, 9⟩,
     ⟨3, 1, 1, some 1, "c", true, 7⟩] 1 .newest 50 _ (by decide) 5

/-! ### Deletion cascade -/

theorem inSubtreeB_iff_chain (store : List Comment) :
    ∀ f x t, inSubtreeB store f x t = true ↔
      t ∈ (ancChain store f x).map (fun c => c.id) := by
  intro f
  induction f with
  | zero =>
    intro x t
    show (x.id == t) = true ↔ _
    simp [ancChain]
    exact ⟨fun h => h.symm, fun h => h.symm⟩
  | succ f ih =>
    intro x t
    cases hp : x.parent_id with
    | none =>
      show (x.id == t || _) = true ↔ _
      simp [ancChain_succ, hp]
      exact ⟨fun h => h.symm, fun h => h.symm⟩
    | some p =>
      cases hq : findByPk store p with
      | none =>
        show (x.id == t || _) = true ↔ _
        simp [ancChain_succ, hp, hq]
        exact ⟨fun h => h.symm, fun h => h.symm⟩
      | some q =>
        show (x.id == t || _) = true ↔ _
        simp only [ancChain_succ, hp, hq, List.map_cons, List.mem_cons,
          Bool.or_eq_true, beq_iff_eq, ih q t]
        constructor
        · rintro (h | h)
          · exact Or.inl h.symm
          · exact Or.inr h
        · rintro (h | h)
          · exact Or.inl h.symm
          · exact Or.inr h

theorem inSubtree_iff_chainOf (store : List Comment) (x : Comment) (t : Nat) :
    inSubtreeB store (x.id + 1) x t = true ↔
      t ∈ (chainOf store x).map (fun c => c.id) :=
  inSubtreeB_iff_chain store (x.id + 1) x t

/-- The comment set of the spec's deletion scenario: roots A and B, then
the chain C→D→E→F→G hanging below A. -/
def scenarioStore : List Comment :=
  [⟨1, 1, 1, none, "A", true, 0⟩, ⟨2, 1, 1, none, "B", true, 1⟩,
   ⟨3, 1, 1, some 1, "C", true, 2⟩, ⟨4, 1, 1, some 3, "D", true, 3⟩,
   ⟨5, 1, 1, some 4, "E", true, 4⟩, ⟨6, 1, 1, some 5, "F", true, 5⟩,
   ⟨7, 1, 1, some 6, "G", true, 6⟩]

/-- C7: deleting a comment is a 404 `NOT_FOUND` when no comment with the
id exists; otherwise it removes the comment together with its entire
descendant subtree (every comment whose ancestor chain passes through the
deleted id) and the success message reports only the count of direct
children — in the spec's scenario, deleting root A (one direct child,
five descendants in total) removes A, C, D, E, F, G and reports
"along with 1 replies". -/
theorem C7_delete_cascade (store : List Comment) (cid : Nat) :
    ((∀ c ∈ store, c.id ≠ cid) →
      deleteComment store cid =
        { status := 404, message := "Comment not found", store := store }) ∧
    (∀ c ∈ store, c.id = cid →
      (deleteComment store cid).status = 200 ∧
      (deleteComment store cid).message =
        deleteMessage (directReplyCount store cid) ∧
      (∀ x, x ∈ (deleteComment store cid).store ↔
        x ∈ store ∧ cid ∉ (chainOf store x).map (fun c => c.id))) ∧
    deleteComment scenarioStore 1 =
      { status := 200,
        message := "Comment deleted successfully along with 1 replies",
        store := [⟨2, 1, 1, none, "B", true, 1⟩] } := by
  refine ⟨?_, ?_, by decide⟩
  · intro h
    simp only [deleteComment, findByPk_none.mpr h]
  · intro c hc hcid
    obtain ⟨c2, hfind⟩ : ∃ c2, findByPk store cid = some c2 := by
      cases h : findByPk store cid with
      | none => exact absurd hcid (findByPk_none.mp h c hc)
      | some c2 => exact ⟨c2, rfl⟩
    refine ⟨by simp only [deleteComment, hfind], by simp only [deleteComment, hfind], ?_⟩
    intro x
    simp only [deleteComment, hfind]
    rw [List.mem_filter]
    constructor
    · rintro ⟨hxs, hxf⟩
      refine ⟨hxs, fun hmem => ?_⟩
      rw [Bool.not_eq_true'] at hxf
      rw [← inSubtree_iff_chainOf store x cid] at hmem
      rw [hxf] at hmem
      cases hmem
    · rintro ⟨hxs, hmem⟩
      refine ⟨hxs, ?_⟩
      rw [Bool.not_eq_true']
      by_contra hcon
      rw [Bool.not_eq_false] at hcon
      exact hmem ((inSubtree_iff_chainOf store x cid).mp hcon)

theorem C7_delete_cascade_witness :
    (deleteComment scenarioStore 1).status = 200 :=
  ((C7_delete_cascade scenarioStore 1).2.1 ⟨1, 1, 1, none, "A", true, 0⟩
    (by decide) rfl).1

/-! ### Replies listing and single-comment fetch -/

/-- A root with a depth-1 reply and a depth-2 reply below it. -/
def deepStore : List Comment :=
  [⟨1, 1, 1, none, "r", true, 0⟩, ⟨2, 1, 1, some 1, "a", true, 1⟩,
   ⟨3, 1, 1, some 2, "b", true, 2⟩]

/-- Ids of the comments returned by the replies listing. -/
def repliesIds (r : RepliesResult) : List Nat :=
  match r with
  | .ok d => d.replies.map (fun it => it.comment.id)
  | .apiError _ _ => []

/-- C9 counterexample: for comment 1 of `deepStore`, the route returns
only the immediate reply (id 2); the published depth-2 descendant (id 3,
a reply to 2) is not in the flat list, although the claim says replies at
every depth below the comment are returned. -/
theorem C9_counterexample :
    (⟨3, 1, 1, some 2, "b", true, 2⟩ : Comment) ∈ deepStore ∧
    repliesIds (getReplies deepStore [] 1 .oldest 20) = [2] := by
  decide

/-- C9 (amended): the replies listing fails with 404 exactly when the
comment is absent, and otherwise returns a flat list containing only the
*immediate* published replies (`parent_id = :id`) bounded by `limit` —
deeper descendants are not included — each annotated with its own
`reaction_counts`; when the immediate published replies fit within
`limit`, every one of them is present. -/
theorem C9_replies_listing (store : List Comment) (reactions : List Reaction)
    (cid : Nat) (dir : SortPar) (limit : Nat) :
    ((getReplies store reactions cid dir limit = .apiError 404 "NOT_FOUND") ↔
      ∀ c ∈ store, c.id ≠ cid) ∧
    (∀ d, getReplies store reactions cid dir limit = .ok d →
      (∀ it ∈ d.replies, it.comment ∈ store ∧ it.comment.parent_id = some cid ∧
        it.comment.is_published = true ∧
        it.reaction_counts =
          computeReactionCounts (reactionsOf reactions it.comment.id)) ∧
      (∀ c ∈ store, c.parent_id = some cid → c.is_published = true →
        (store.filter
          (fun x => x.parent_id == some cid && x.is_published)).length ≤ limit →
        ∃ it ∈ d.replies, it.comment = c)) := by
  constructor
  · cases hfind : findByPk store cid with
    | none =>
      simp only [getReplies, hfind]
      exact ⟨fun _ => findByPk_none.mp hfind, fun _ => trivial⟩
    | some c =>
      simp only [getReplies, hfind]
      obtain ⟨hcm, hci⟩ := findByPk_some hfind
      constructor
      · intro h
        cases h
      · intro h
        exact absurd hci (h c hcm)
  · intro d hok
    cases hfind : findByPk store cid with
    | none =>
      rw [getReplies] at hok
      simp only [hfind] at hok
      cases hok
    | some c =>
      rw [getReplies] at hok
      simp only [hfind] at hok
      injection hok with h2
      subst h2
      constructor
      · intro it hit
        obtain ⟨r, hr, rfl⟩ := List.mem_map.mp hit
        have hr2 := List.mem_of_mem_take hr
        rw [List.mem_insertionSort] at hr2
        obtain ⟨hrs, hrp⟩ := List.mem_filter.mp hr2
        rw [Bool.and_eq_true] at hrp
        refine ⟨hrs, by simpa using hrp.1, hrp.2, rfl⟩
      · intro c2 hcs hcp hcpub hlen
        have hmem : c2 ∈ store.filter
            (fun x => x.parent_id == some cid && x.is_published) :=
          List.mem_filter.mpr ⟨hcs, by simp [hcp, hcpub]⟩
        have hsort : c2 ∈ List.insertionSort (commentLe dir)
            (store.filter (fun x => x.parent_id == some cid && x.is_published)) :=
          (List.mem_insertionSort (commentLe dir)).mpr hmem
        have hfull : (List.insertionSort (commentLe dir)
            (store.filter
              (fun x => x.parent_id == some cid && x.is_published))).take limit =
            List.insertionSort (commentLe dir)
              (store.filter (fun x => x.parent_id == some cid && x.is_published)) := by
          apply List.take_of_length_le
          rw [(List.perm_insertionSort _ _).length_eq]
          exact hlen
        refine ⟨⟨c2, computeReactionCounts (reactionsOf reactions c2.id)⟩, ?_, rfl⟩
        apply List.mem_map_of_mem
        rw [hfull]
        exact hsort

theorem C9_replies_listing_witness :
    ∃ it ∈ (RepliesData.mk 1
      [⟨⟨2, 1, 1, some 1, "a", true, 1⟩, []⟩] 1).replies,
      it.comment = ⟨2, 1, 1, some 1, "a", true, 1⟩ :=
  ((C9_replies_listing [⟨1, 1, 1, none, "r", true, 0⟩,
      ⟨2, 1, 1, some 1, "a", true, 1⟩] [] 1 .oldest 20).2
    (RepliesData.mk 1 [⟨⟨2, 1, 1, some 1, "a", true, 1⟩, []⟩] 1)
    (by decide)).2 ⟨2, 1, 1, some 1, "a", true, 1⟩ (by decide) rfl rfl (by decide)

/-- C10: fetching a single comment responds 404 `NOT_FOUND` exactly when
no comment row with that id exists; a comment with `is_published = false`
is still returned with its data, because the published filter applies
only to the included replies, never to the requested comment itself. -/
theorem C10_single_comment (store : List Comment) (reactions : List Reaction)
    (cid : Nat) (hn : IdsNodup store) :
    ((getComment store reactions cid = .apiError 404 "NOT_FOUND") ↔
      ∀ c ∈ store, c.id ≠ cid) ∧
    (∀ c ∈ store, c.id = cid →
      ∃ d, getComment store reactions cid = .ok d ∧ d.comment = c ∧
        ∀ r ∈ d.replies, r ∈ store ∧ r.parent_id = some cid ∧
          r.is_published = true) := by
  constructor
  · cases hfind : findByPk store cid with
    | none =>
      simp only [getComment, hfind]
      exact ⟨fun _ => findByPk_none.mp hfind, fun _ => trivial⟩
    | some c =>
      simp only [getComment, hfind]
      obtain ⟨hcm, hci⟩ := findByPk_some hfind
      constructor
      · intro h
        cases h
      · intro h
        exact absurd hci (h c hcm)
  · intro c hc hcid
    have hfind : findByPk store cid = some c := by
      rw [← hcid]
      exact findByPk_of_mem hn hc
    refine ⟨⟨c, store.filter (fun x => x.parent_id == some cid && x.is_published),
      computeReactionCounts (reactionsOf reactions cid)⟩,
      by simp only [getComment, hfind], rfl, ?_⟩
    intro r hr
    obtain ⟨hrs, hrp⟩ := List.mem_filter.mp hr
    rw [Bool.and_eq_true] at hrp
    exact ⟨hrs, by simpa using hrp.1, hrp.2⟩

theorem C10_single_comment_witness :
    ∃ d, getComment [⟨1, 1, 1, none, "secret", false, 0⟩] [] 1 = .ok d ∧
      d.comment = ⟨1, 1, 1, none, "secret", false, 0⟩ ∧
      ∀ r ∈ d.replies, r ∈ [⟨1, 1, 1, none, "secret", false, 0⟩] ∧
        r.parent_id = some 1 ∧ r.is_published = true :=
  (C10_single_comment [⟨1, 1, 1, none, "secret", false, 0⟩] [] 1 (by decide)).2
    ⟨1, 1, 1, none, "secret", false, 0⟩ (by decide) rfl

/-! ### Paginated listing -/

theorem mem_flatten_sortTree_buildNode (dir : SortPar) (l : List Comment) :
    ∀ f c x, x ∈ flattenTree (sortTree dir (buildNode l f c)) ↔
      x ∈ flattenTree (buildNode l f c) := by
  intro f
  induction f with
  | zero => intro c x; exact Iff.rfl
  | succ f ih =>
    intro c x
    rw [show sortTree dir (buildNode l (f + 1) c) =
        .node c (List.insertionSort (treeLe dir)
          (sortForest dir ((childrenOf l c.id).map (buildNode l f)))) from rfl,
      show buildNode l (f + 1) c =
        .node c ((childrenOf l c.id).map (buildNode l f)) from rfl,
      flattenTree_node, flattenTree_node, List.mem_cons, List.mem_cons]
    apply or_congr Iff.rfl
    rw [mem_flattenForest, mem_flattenForest]
    constructor
    · rintro ⟨t, ht, hxt⟩
      rw [List.mem_insertionSort, sortForest_eq_map] at ht
      obtain ⟨t0, ht0, rfl⟩ := List.mem_map.mp ht
      obtain ⟨ch, hch, rfl⟩ := List.mem_map.mp ht0
      exact ⟨buildNode l f ch, List.mem_map_of_mem _ hch, (ih ch x).mp hxt⟩
    · rintro ⟨t, ht, hxt⟩
      obtain ⟨ch, hch, rfl⟩ := List.mem_map.mp ht
      refine ⟨sortTree dir (buildNode l f ch), ?_, (ih ch x).mpr hxt⟩
      rw [List.mem_insertionSort, sortForest_eq_map]
      exact List.mem_map_of_mem _ (List.mem_map_of_mem _ hch)

theorem mem_flatten_sortForest_buildForest (dir : SortPar) (l : List Comment)
    (x : Comment) :
    x ∈ flattenForest (sortForest dir (buildForest l)) ↔
      x ∈ flattenForest (buildForest l) := by
  rw [mem_flattenForest, mem_flattenForest]
  constructor
  · rintro ⟨t, ht, hxt⟩
    rw [sortForest_eq_map] at ht
    obtain ⟨t0, ht0, rfl⟩ := List.mem_map.mp ht
    rw [buildForest_eq] at ht0
    obtain ⟨r, hr, rfl⟩ := List.mem_map.mp ht0
    refine ⟨buildNode l l.length r, ?_,
      (mem_flatten_sortTree_buildNode dir l l.length r x).mp hxt⟩
    rw [buildForest_eq]
    exact List.mem_map_of_mem _ hr
  · rintro ⟨t, ht, hxt⟩
    rw [buildForest_eq] at ht
    obtain ⟨r, hr, rfl⟩ := List.mem_map.mp ht
    refine ⟨sortTree dir (buildNode l l.length r), ?_,
      (mem_flatten_sortTree_buildNode dir l l.length r x).mpr hxt⟩
    rw [sortForest_eq_map, buildForest_eq]
    exact List.mem_map_of_mem _ (List.mem_map_of_mem _ hr)

theorem pageWindow_mem {store : List Comment} {postId : Nat} {dir : SortPar}
    {limit page : Nat} {x : Comment}
    (h : x ∈ pageWindow store postId dir limit page) :
    x ∈ store ∧ x.post_id = postId ∧ x.is_published = true ∧
      x.parent_id = none := by
  rw [pageWindow] at h
  have h2 := List.mem_of_mem_drop (List.mem_of_mem_take h)
  rw [List.mem_insertionSort] at h2
  obtain ⟨hs, hp⟩ := List.mem_filter.mp h2
  rw [Bool.and_eq_true, Bool.and_eq_true] at hp
  refine ⟨hs, by simpa using hp.1.1, hp.1.2, by simpa using hp.2⟩

theorem directRepliesFetch_mem {store : List Comment} {ids : List Nat}
    {dir : SortPar} {x : Comment} :
    x ∈ directRepliesFetch store ids dir ↔
      x ∈ store ∧ x.is_published = true ∧
        ∃ p, x.parent_id = some p ∧ p ∈ ids := by
  rw [directRepliesFetch, List.mem_insertionSort, List.mem_filter]
  constructor
  · rintro ⟨hs, hp⟩
    rw [Bool.and_eq_true] at hp
    cases hpar : x.parent_id with
    | none =>
      rw [hpar] at hp
      exact absurd hp.1 (by simp)
    | some p =>
      rw [hpar] at hp
      refine ⟨hs, hp.2, p, rfl, ?_⟩
      have := hp.1
      simpa using this
  · rintro ⟨hs, hpub, p, hpar, hid⟩
    refine ⟨hs, ?_⟩
    rw [Bool.and_eq_true, hpar]
    exact ⟨by simpa using hid, hpub⟩

/-- C3 counterexample store: one top-level comment (1), a direct reply
(2), and a published depth-2 reply (3). -/
def c3store : List Comment :=
  [⟨1, 1, 1, none, "r", true, 0⟩, ⟨2, 1, 1, some 1, "a", true, 1⟩,
   ⟨3, 1, 1, some 2, "b", true, 2⟩]

/-- The comments present in the paginated listing's returned forest. -/
def pagedFlat (r : PagedCommentsResult) : List Comment :=
  match r with
  | .ok d => flattenForest d.comments
  | .apiError _ _ => []

/-- C3 counterexample: comment 3 is a published reply of the page's
top-level comment 1 at depth 2, but the paginated listing does not attach
it — the batch reply query fetches only the direct replies
(`parent_id = ANY(top-level ids)`), not replies at every depth. -/
theorem C3_counterexample :
    (⟨3, 1, 1, some 2, "b", true, 2⟩ : Comment) ∈ c3store ∧
    (⟨3, 1, 1, some 2, "b", true, 2⟩ : Comment).is_published = true ∧
    (⟨3, 1, 1, some 2, "b", true, 2⟩ : Comment) ∉
      pagedFlat (getPostCommentsPaged [1] c3store 1 .oldest 10 1) := by
  decide

/-- C3 (amended): the paginated listing counts and fetches only top-level
(null-parent, published) comments bounded by page and limit, attaches
only the *direct* published replies of the page's top-level comments
(deeper descendants are not fetched), and derives the pagination metadata
from the top-level-only count: `has_next_page` is exactly
`page < ceil(topLevelCount / limit)`, so with limit=100, page=1 and
exactly 100 top-level comments it is false, and with limit=1, page=1 and
at least 2 top-level comments it is true. -/
theorem C3_paginated_listing (posts : List Nat) (store : List Comment)
    (postId : Nat) (dir : SortPar) (limit page : Nat) (d : PagedCommentsData)
    (h : getPostCommentsPaged posts store postId dir limit page = .ok d) :
    d.pagination.total_count = (topLevelPublished store postId).length ∧
    d.pagination.has_next_page =
      decide (page <
        ((topLevelPublished store postId).length + limit - 1) / limit) ∧
    (page = 1 → limit = 100 → (topLevelPublished store postId).length = 100 →
      d.pagination.has_next_page = false) ∧
    (page = 1 → limit = 1 → 2 ≤ (topLevelPublished store postId).length →
      d.pagination.has_next_page = true) ∧
    (∀ x, x ∈ flattenForest d.comments ↔
      x ∈ pageWindow store postId dir limit page ∨
        (x ∈ store ∧ x.is_published = true ∧
          ∃ t ∈ pageWindow store postId dir limit page,
            x.parent_id = some t.id)) := by
  by_cases hp : posts.contains postId = true
  case neg =>
    have hp2 : posts.contains postId = false := by
      simpa using hp
    rw [getPostCommentsPaged] at h
    simp only [hp2, Bool.not_false, if_true] at h
    simp at h
  case pos =>
  rw [getPostCommentsPaged] at h
  simp only [hp, Bool.not_true, Bool.false_eq_true, if_false] at h
  injection h with h2
  subst h2
  refine ⟨rfl, rfl, ?_, ?_, ?_⟩
  · intro hpage hlim hcnt
    simp only [hpage, hlim, hcnt]
    decide
  · intro hpage hlim hcnt
    simp only [hpage, hlim]
    rw [decide_eq_true_eq]
    have : ((topLevelPublished store postId).length + 1 - 1) / 1 =
        (topLevelPublished store postId).length := by
      simp
    omega
  · intro x
    rw [show (PagedCommentsData.mk postId
        (sortForest dir (buildForest
          (pageWindow store postId dir limit page ++
            directRepliesFetch store
              ((pageWindow store postId dir limit page).map (fun c => c.id))
              dir)))
        (topLevelPublished store postId).length
        (Pagination.mk page
          (((topLevelPublished store postId).length + limit - 1) / limit)
          (topLevelPublished store postId).length limit
          (decide (page <
            ((topLevelPublished store postId).length + limit - 1) / limit))
          (decide (1 < page)))).comments =
      sortForest dir (buildForest
        (pageWindow store postId dir limit page ++
          directRepliesFetch store
            ((pageWindow store postId dir limit page).map (fun c => c.id))
            dir)) from rfl]
    rw [mem_flatten_sortForest_buildForest]
    constructor
    · intro hx
      have hall := mem_flattenForest_buildForest_subset hx
      rcases List.mem_append.mp hall with hw | hr
      · exact Or.inl hw
      · obtain ⟨hs, hpub, p, hpar, hid⟩ := directRepliesFetch_mem.mp hr
        obtain ⟨t, htw, hti⟩ := List.mem_map.mp hid
        exact Or.inr ⟨hs, hpub, t, htw, by rw [hpar, hti]⟩
    · rintro (hw | ⟨hs, hpub, t, htw, hpar⟩)
      · apply root_mem_flattenForest_buildForest
        exact mem_rootsOf (List.mem_append_left _ hw) (pageWindow_mem hw).2.2.2
      · have hxr : x ∈ directRepliesFetch store
            ((pageWindow store postId dir limit page).map (fun c => c.id)) dir :=
          directRepliesFetch_mem.mpr
            ⟨hs, hpub, t.id, hpar, List.mem_map_of_mem _ htw⟩
        exact child_mem_flattenForest_buildForest
          (mem_rootsOf (List.mem_append_left _ htw) (pageWindow_mem htw).2.2.2)
          (List.mem_append_right _ hxr) hpar

theorem C3_paginated_listing_witness :
    (PagedCommentsData.mk 1
      [.node ⟨1, 1, 1, none, "r", true, 0⟩
        [.node ⟨2, 1, 1, some 1, "a", true, 1⟩ []]] 1
      (Pagination.mk 1 1 1 10 false false)).pagination.total_count =
      (topLevelPublished c3store 1).length :=
  (C3_paginated_listing [1] c3store 1 .oldest 10 1
    (PagedCommentsData.mk 1
      [.node ⟨1, 1, 1, none, "r", true, 0⟩
        [.node ⟨2, 1, 1, some 1, "a", true, 1⟩ []]] 1
      (Pagination.mk 1 1 1 10 false false))
    (by decide)).1
